import Mathlib

/-!
Verification of the robot-fleet management core (`src/models/robot.py`,
`src/models/nav_graph.py`, `src/controllers/traffic_manager.py`,
`src/controllers/fleet_manager.py`) against its natural-language
specification.

Shallow embedding conventions:
* Python floats are modelled by `ℚ`.  The Euclidean metric computed with
  `np.sqrt` in `nav_graph.py` is abstracted into a distance field
  `NavGraph.dist : ℕ → ℕ → ℚ`; the facts the proofs need about it
  (non-negativity and the triangle inequality on the graph's vertices,
  both true of the Euclidean distance) are explicit hypotheses.
* Python dicts are modelled by association lists with dict semantics
  (update-in-place keeps the position of a key, new keys are appended),
  or, for the A* score tables, by functions `ℕ → Option ℚ`.
* A raised Python exception is modelled as `Except.error` carrying the
  exception's name; `None` results are `Option.none`.
* Iteration order of a Python `set` is unspecified; where the source
  iterates a set (`min(open_set, ...)`), the embedding uses list order
  with first-wins ties, which realises one admissible order.  No theorem
  below depends on the choice.
-/

set_option maxHeartbeats 1600000
set_option maxRecDepth 4000

/-! ## Robot state machine (`src/models/robot.py`) -/

inductive RobotStatus
  | idle
  | moving
  | waiting
  | charging
  | task_complete
  | low_battery
  | battery_dead
deriving DecidableEq, Repr

structure Robot where
  id : ℕ
  current_vertex : ℕ
  next_vertex : Option ℕ
  path : List ℕ
  path_index : ℕ
  progress : ℚ
  status : RobotStatus
  battery_level : ℚ
  battery_drain_rate : ℚ
  charging_rate : ℚ
  move_speed : ℚ
  is_battery_dead : Bool
deriving DecidableEq, Repr

/-- `Robot.__init__`: spawn a robot at a vertex (the random display color is
presentation-layer state and is omitted). -/
def Robot.mk0 (id start_vertex : ℕ) : Robot :=
  { id := id
    current_vertex := start_vertex
    next_vertex := none
    path := []
    path_index := 0
    progress := 0
    status := .idle
    battery_level := 100
    battery_drain_rate := 5
    charging_rate := 20
    move_speed := 1
    is_battery_dead := false }

/-- The motion half of `Robot.update` while `MOVING` (progress advance,
arrival handling, completion check).  The source reads `self.next_vertex`
(always set in reachable `MOVING` states); the embedding defaults a missing
next vertex to the current one. -/
def Robot.moveStep (r : Robot) (delta_time : ℚ) : Robot :=
  if r.progress + r.move_speed * delta_time ≥ 1 then
    let cv := match r.next_vertex with
      | some nv => nv
      | none => r.current_vertex
    let pi := r.path_index + 1
    if r.path.length - 1 ≤ pi then
      { r with current_vertex := cv, progress := 0, path_index := 0,
               next_vertex := none, status := .task_complete, path := [] }
    else
      { r with current_vertex := cv, progress := 0, path_index := pi,
               next_vertex := r.path.get? (pi + 1) }
  else
    { r with progress := r.progress + r.move_speed * delta_time }

/-- The battery-drain half of `Robot.update` while `MOVING` (the source's
local `self.battery_level = max(0.0, ...)` followed by the dead-battery
check; the clamped level is written out instead of a local). -/
def Robot.drainStep (r1 : Robot) (delta_time : ℚ) : Bool × Robot :=
  if max 0 (r1.battery_level - r1.battery_drain_rate * delta_time) ≤ 0 then
    (false,
      { r1 with
          battery_level := max 0 (r1.battery_level - r1.battery_drain_rate * delta_time),
          is_battery_dead := true, status := .battery_dead,
          next_vertex := none, path := [], path_index := 0 })
  else
    (true, { r1 with
        battery_level := max 0 (r1.battery_level - r1.battery_drain_rate * delta_time) })

/-- The `CHARGING` branch of `Robot.update`. -/
def Robot.chargeStep (r : Robot) (delta_time : ℚ) : Bool × Robot :=
  if 100 ≤ min 100 (r.battery_level + r.charging_rate * delta_time) then
    (true, { r with
        battery_level := min 100 (r.battery_level + r.charging_rate * delta_time),
        status := .task_complete, is_battery_dead := false })
  else
    (true, { r with
        battery_level := min 100 (r.battery_level + r.charging_rate * delta_time) })

/-- `Robot.update`.  Returns the Python boolean result paired with the
mutated robot.  While `MOVING`, the motion step runs first and the battery
drain (and dead-battery check) runs afterwards in the same call, exactly as
in the source. -/
def Robot.update (r : Robot) (delta_time : ℚ) : Bool × Robot :=
  if r.status = .moving then
    (r.moveStep delta_time).drainStep delta_time
  else if r.status = .charging then
    r.chargeStep delta_time
  else
    (true, r)

theorem Robot.moveStep_battery (r : Robot) (dt : ℚ) :
    (r.moveStep dt).battery_level = r.battery_level := by
  unfold Robot.moveStep
  by_cases hp : r.progress + r.move_speed * dt ≥ 1
  · rw [if_pos hp]
    by_cases hlen : r.path.length - 1 ≤ r.path_index + 1 <;> simp [hlen]
  · rw [if_neg hp]

theorem Robot.moveStep_drain_rate (r : Robot) (dt : ℚ) :
    (r.moveStep dt).battery_drain_rate = r.battery_drain_rate := by
  unfold Robot.moveStep
  by_cases hp : r.progress + r.move_speed * dt ≥ 1
  · rw [if_pos hp]
    by_cases hlen : r.path.length - 1 ≤ r.path_index + 1 <;> simp [hlen]
  · rw [if_neg hp]

theorem Robot.moveStep_dead_flag (r : Robot) (dt : ℚ) :
    (r.moveStep dt).is_battery_dead = r.is_battery_dead := by
  unfold Robot.moveStep
  by_cases hp : r.progress + r.move_speed * dt ≥ 1
  · rw [if_pos hp]
    by_cases hlen : r.path.length - 1 ≤ r.path_index + 1 <;> simp [hlen]
  · rw [if_neg hp]

/-- `Robot.assign_task`. -/
def Robot.assign_task (r : Robot) (path : List ℕ) : Bool × Robot :=
  if path.length < 2 then
    (false, r)
  else if ¬(r.status = .idle ∨ r.status = .task_complete) then
    (false, r)
  else if r.is_battery_dead then
    (false, r)
  else
    (true,
      { r with path := path, path_index := 0, next_vertex := path.get? 1,
               progress := 0, status := .moving })

/-- `Robot.wait`. -/
def Robot.wait (r : Robot) : Robot :=
  if r.status = .moving then { r with status := .waiting } else r

/-- `Robot.resume`. -/
def Robot.resume (r : Robot) : Robot :=
  if r.status = .waiting then { r with status := .moving } else r

/-- `Robot.needs_charging`. -/
def Robot.needs_charging (r : Robot) : Bool :=
  r.battery_level ≤ 20

/-- `Robot.is_charging`. -/
def Robot.is_charging (r : Robot) : Bool :=
  r.status = .charging

/-- `Robot.start_charging`. -/
def Robot.start_charging (r : Robot) : Robot :=
  { r with status := .charging }

/-- `Robot.stop_charging`. -/
def Robot.stop_charging (r : Robot) : Robot :=
  if r.status = .charging then { r with status := .idle } else r

/-! ### Claim C3: battery depletion mid-route -/

/-- C3: if a `Moving` agent's battery reaches exactly 0 during an `update`
call, that call returns the failure signal `false`, the status becomes
`BatteryDead`, the route, route index and next-site are cleared, and the
dead flag is set; any robot whose dead flag is set rejects `assign_task`,
and the flag (hence the rejection) persists through any further `update`
whose outcome leaves the battery at or below 0. -/
theorem C3_battery_dead_on_update (r : Robot) (dt : ℚ)
    (hmov : r.status = .moving)
    (hdrain : r.battery_level - r.battery_drain_rate * dt ≤ 0) :
    ((r.update dt).1 = false ∧
     (r.update dt).2.status = .battery_dead ∧
     (r.update dt).2.path = [] ∧
     (r.update dt).2.next_vertex = none ∧
     (r.update dt).2.path_index = 0 ∧
     (r.update dt).2.battery_level = 0 ∧
     (r.update dt).2.is_battery_dead = true) ∧
    (∀ s : Robot, s.is_battery_dead = true → ∀ p, (s.assign_task p).1 = false) ∧
    (∀ s : Robot, ∀ dt₂ : ℚ, s.is_battery_dead = true →
      (s.update dt₂).2.battery_level ≤ 0 →
      (s.update dt₂).2.is_battery_dead = true) := by
  refine ⟨?_, ?_, ?_⟩
  · have hb1 : (r.moveStep dt).battery_level
        - (r.moveStep dt).battery_drain_rate * dt ≤ 0 := by
      rw [Robot.moveStep_battery, Robot.moveStep_drain_rate]
      exact hdrain
    have hb0 : max 0 ((r.moveStep dt).battery_level
        - (r.moveStep dt).battery_drain_rate * dt) = 0 := max_eq_left hb1
    unfold Robot.update
    rw [if_pos hmov]
    unfold Robot.drainStep
    rw [if_pos hb0.le]
    simp [hb0]
  · intro s hdead p
    unfold Robot.assign_task
    by_cases h1 : p.length < 2
    · simp [h1]
    · by_cases h2 : s.status = .idle ∨ s.status = .task_complete <;>
        simp [h1, h2, hdead]
  · intro s dt₂ hdead hle
    unfold Robot.update at hle ⊢
    by_cases hm : s.status = .moving
    · rw [if_pos hm]
      unfold Robot.drainStep
      by_cases hb : max 0 ((s.moveStep dt₂).battery_level
          - (s.moveStep dt₂).battery_drain_rate * dt₂) ≤ 0
      · rw [if_pos hb]
      · rw [if_neg hb]
        simp [Robot.moveStep_dead_flag, hdead]
    · rw [if_neg hm] at hle ⊢
      by_cases hc : s.status = .charging
      · rw [if_pos hc] at hle ⊢
        unfold Robot.chargeStep at hle ⊢
        by_cases h100 : (100 : ℚ) ≤ min 100 (s.battery_level + s.charging_rate * dt₂)
        · exfalso
          rw [if_pos h100] at hle
          simp only at hle
          linarith
        · rw [if_neg h100]
          simpa using hdead
      · rw [if_neg hc]
        simpa using hdead

/-- A concrete moving robot with battery 5 used as the C3 witness input. -/
def c3Bot : Robot :=
  { Robot.mk0 0 0 with
      status := .moving
      battery_level := 5
      path := [0, 1]
      next_vertex := some 1 }

/-- Witness for C3 at a concrete moving robot with battery 5, drain rate 5,
elapsed time 1. -/
theorem C3_battery_dead_on_update_witness :
    (c3Bot.update 1).1 = false ∧ (c3Bot.update 1).2.status = .battery_dead := by
  have h := C3_battery_dead_on_update c3Bot 1 (by with_unfolding_all decide)
    (by with_unfolding_all decide)
  exact ⟨h.1.1, h.1.2.1⟩

/-! ### Claim C9: update is the identity outside Moving and Charging -/

/-- C9: for every agent whose status is neither `Moving` nor `Charging`
(so `Idle`, `Waiting`, `TaskComplete`, `BatteryDead`, or the vestigial
`LowBattery`), `update` returns `true` and leaves the robot unchanged; in
particular a `Waiting` agent's battery does not drain and its progress does
not advance. -/
theorem C9_update_frame (r : Robot) (dt : ℚ)
    (hm : r.status ≠ .moving) (hc : r.status ≠ .charging) :
    r.update dt = (true, r) := by
  unfold Robot.update
  rw [if_neg hm, if_neg hc]

/-- Witness for C9 at a concrete waiting robot. -/
theorem C9_update_frame_witness :
    ({ Robot.mk0 3 7 with status := .waiting, battery_level := 42 } : Robot).update 5
      = (true, { Robot.mk0 3 7 with status := .waiting, battery_level := 42 }) :=
  C9_update_frame _ 5 (by with_unfolding_all decide) (by with_unfolding_all decide)

/-! ### Claim C10: the dead-battery flag is cleared only by a full charge -/

/-- C10: once `is_battery_dead` is set, the only operation that clears it is
an `update` in `Charging` status that brings the battery to 100: any
`update` that clears the flag was a charging update ending at battery 100,
and `wait`, `resume`, `start_charging`, `stop_charging` and `assign_task`
all leave the flag set.  In particular `stop_charging` leaves the flag set,
so after an interrupted charge `assign_task` is still rejected even though
the battery level may be strictly positive. -/
theorem C10_dead_flag_cleared_only_by_full_charge (r : Robot)
    (hdead : r.is_battery_dead = true) :
    (∀ dt : ℚ, (r.update dt).2.is_battery_dead = false →
       r.status = .charging ∧ (r.update dt).2.battery_level = 100) ∧
    (r.stop_charging).is_battery_dead = true ∧
    (r.wait).is_battery_dead = true ∧
    (r.resume).is_battery_dead = true ∧
    (r.start_charging).is_battery_dead = true ∧
    (∀ p, ((r.assign_task p).2).is_battery_dead = true) ∧
    (∀ p, ((r.stop_charging).assign_task p).1 = false) := by
  refine ⟨?_, ?_, ?_, ?_, ?_, ?_, ?_⟩
  · intro dt hclear
    unfold Robot.update at hclear ⊢
    by_cases hm : r.status = .moving
    · exfalso
      rw [if_pos hm] at hclear
      unfold Robot.drainStep at hclear
      by_cases hb : max 0 ((r.moveStep dt).battery_level
          - (r.moveStep dt).battery_drain_rate * dt) ≤ 0
      · rw [if_pos hb] at hclear
        simp at hclear
      · rw [if_neg hb] at hclear
        simp [Robot.moveStep_dead_flag, hdead] at hclear
    · rw [if_neg hm] at hclear ⊢
      by_cases hc : r.status = .charging
      · rw [if_pos hc] at hclear ⊢
        unfold Robot.chargeStep at hclear ⊢
        refine ⟨hc, ?_⟩
        by_cases h100 : (100 : ℚ) ≤ min 100 (r.battery_level + r.charging_rate * dt)
        · rw [if_pos h100]
          simp only
          exact le_antisymm (min_le_left _ _) h100
        · exfalso
          rw [if_neg h100] at hclear
          simp [hdead] at hclear
      · exfalso
        rw [if_neg hc] at hclear
        simp [hdead] at hclear
  · unfold Robot.stop_charging
    by_cases hc : r.status = .charging <;> simp [hc, hdead]
  · unfold Robot.wait
    by_cases hm : r.status = .moving <;> simp [hm, hdead]
  · unfold Robot.resume
    by_cases hw : r.status = .waiting <;> simp [hw, hdead]
  · unfold Robot.start_charging
    simpa using hdead
  · intro p
    unfold Robot.assign_task
    by_cases h1 : p.length < 2
    · simp [h1, hdead]
    · by_cases h2 : r.status = .idle ∨ r.status = .task_complete <;>
        simp [h1, h2, hdead]
  · intro p
    have hflag : (r.stop_charging).is_battery_dead = true := by
      unfold Robot.stop_charging
      by_cases hc : r.status = .charging <;> simp [hc, hdead]
    unfold Robot.assign_task
    by_cases h1 : p.length < 2
    · simp [h1]
    · by_cases h2 : (r.stop_charging).status = .idle ∨
        (r.stop_charging).status = .task_complete <;>
        simp [h1, h2, hflag]

/-- A concrete dead-flagged charging robot used as the C10 witness input. -/
def c10Bot : Robot :=
  { Robot.mk0 2 4 with
      status := .charging
      battery_level := 50
      is_battery_dead := true }

/-- Witness for C10: a charging robot with the dead flag set and battery 50,
whose charge is interrupted, still rejects route assignment. -/
theorem C10_dead_flag_witness :
    ((c10Bot.stop_charging).assign_task [4, 5]).1 = false :=
  (C10_dead_flag_cleared_only_by_full_charge c10Bot (by with_unfolding_all decide)).2.2.2.2.2.2 [4, 5]

/-! ## Association-list dictionaries (Python `dict` semantics) -/

/-- Dict lookup: first entry with the key. -/
def alookup {α β : Type} [DecidableEq α] : List (α × β) → α → Option β
  | [], _ => none
  | (k, v) :: rest, key => if k = key then some v else alookup rest key

/-- Dict write: update in place if the key exists, else append (Python
dicts keep insertion order). -/
def ainsert {α β : Type} [DecidableEq α] : List (α × β) → α → β → List (α × β)
  | [], key, val => [(key, val)]
  | (k, v) :: rest, key, val =>
    if k = key then (k, val) :: rest else (k, v) :: ainsert rest key val

theorem ainsert_mem_self {α β : Type} [DecidableEq α]
    (l : List (α × β)) (k : α) (v : β) : (k, v) ∈ ainsert l k v := by
  induction l with
  | nil => simp [ainsert]
  | cons kv rest ih =>
    obtain ⟨k1, v1⟩ := kv
    simp only [ainsert]
    by_cases h : k1 = k
    · subst h
      rw [if_pos rfl]
      exact List.mem_cons_self _ _
    · rw [if_neg h]
      exact List.mem_cons_of_mem _ ih

/-! ## Traffic coordinator (`src/controllers/traffic_manager.py`) -/

/-- `TrafficManager._get_edge_key`: normalized undirected lane key. -/
def edgeKey (v1 v2 : ℕ) : ℕ × ℕ := (min v1 v2, max v1 v2)

theorem edgeKey_comm (a b : ℕ) : edgeKey a b = edgeKey b a := by
  simp [edgeKey, min_comm, max_comm]

structure TrafficManager where
  edge_occupancy : List ((ℕ × ℕ) × ℕ)
  vertex_occupancy : List (ℕ × ℕ)
  reserved_paths : List (ℕ × List ℕ)
  waiting_robots : List ℕ
deriving DecidableEq, Repr

/-- `TrafficManager.__init__`. -/
def TrafficManager.mk0 : TrafficManager :=
  { edge_occupancy := [], vertex_occupancy := [], reserved_paths := [],
    waiting_robots := [] }

/-- `TrafficManager.is_edge_occupied`. -/
def TrafficManager.is_edge_occupied (tm : TrafficManager) (v1 v2 : ℕ)
    (ignore_robot_id : Option ℕ) : Bool :=
  match alookup tm.edge_occupancy (edgeKey v1 v2) with
  | none => false
  | some rid =>
    match ignore_robot_id with
    | some ig => if rid = ig then false else true
    | none => true

/-- `TrafficManager.is_vertex_occupied`. -/
def TrafficManager.is_vertex_occupied (tm : TrafficManager) (vertex : ℕ)
    (ignore_robot_id : Option ℕ) : Bool :=
  match alookup tm.vertex_occupancy vertex with
  | none => false
  | some rid =>
    match ignore_robot_id with
    | some ig => if rid = ig then false else true
    | none => true

/-- `TrafficManager.is_path_available`: checks only the immediate next
step (next vertex free, lane free, and no other reservation traversing the
same lane in the opposite direction). -/
def TrafficManager.is_path_available (tm : TrafficManager) (robot_id : ℕ)
    (path : List ℕ) : Bool :=
  match path with
  | [] => false
  | [_] => true
  | current :: nxt :: _ =>
    if tm.is_vertex_occupied nxt (some robot_id) then false
    else if tm.is_edge_occupied current nxt (some robot_id) then false
    else
      ! tm.reserved_paths.any (fun pr =>
          decide (pr.1 ≠ robot_id) && decide (1 < pr.2.length) &&
          decide (edgeKey (pr.2.getD 0 0) (pr.2.getD 1 0) = edgeKey current nxt) &&
          decide (pr.2.getD 0 0 = nxt) && decide (pr.2.getD 1 0 = current))

/-- `TrafficManager.clear_reservations`. -/
def TrafficManager.clear_reservations (tm : TrafficManager) (robot_id : ℕ) :
    TrafficManager :=
  { tm with
      vertex_occupancy := tm.vertex_occupancy.filter (fun kv => decide (kv.2 ≠ robot_id))
      edge_occupancy := tm.edge_occupancy.filter (fun kv => decide (kv.2 ≠ robot_id))
      reserved_paths := tm.reserved_paths.filter (fun kv => decide (kv.1 ≠ robot_id))
      waiting_robots := tm.waiting_robots.filter (fun x => decide (x ≠ robot_id)) }

/-- `TrafficManager.reserve_path`: on success clears the agent's previous
reservation and records the new route; on failure returns the state
untouched. -/
def TrafficManager.reserve_path (tm : TrafficManager) (robot_id : ℕ)
    (path : List ℕ) : Bool × TrafficManager :=
  if tm.is_path_available robot_id path then
    (true,
      { tm.clear_reservations robot_id with
          reserved_paths :=
            ainsert (tm.clear_reservations robot_id).reserved_paths robot_id path })
  else (false, tm)

/-! ### Claim C2: opposite-direction lane reservations exclude each other -/

/-- C2: if `reserve_path` succeeds for agent `x` with a route whose
immediate next step traverses the lane `a-b`, then the route is recorded,
and as long as that record `(x, rx)` is present (i.e. before it is cleared
or replaced) any `reserve_path` call by a different agent `y` whose route's
immediate next step traverses the same lane in the opposite direction
returns `false` and leaves the coordinator state completely unchanged;
moreover every failing `reserve_path` call leaves the state unchanged. -/
theorem C2_reserve_headon_excludes (tm : TrafficManager) (x : ℕ) (rx : List ℕ)
    (a b : ℕ) (h0 : rx.get? 0 = some a) (h1 : rx.get? 1 = some b)
    (tm' : TrafficManager) (hres : tm.reserve_path x rx = (true, tm')) :
    (x, rx) ∈ tm'.reserved_paths ∧
    (∀ tm₂ : TrafficManager, (x, rx) ∈ tm₂.reserved_paths →
      ∀ y, y ≠ x → ∀ ry : List ℕ, ry.get? 0 = some b → ry.get? 1 = some a →
        tm₂.reserve_path y ry = (false, tm₂)) ∧
    (∀ tm₀ : TrafficManager, ∀ rid p,
      (tm₀.reserve_path rid p).1 = false → (tm₀.reserve_path rid p).2 = tm₀) := by
  refine ⟨?_, ?_, ?_⟩
  · unfold TrafficManager.reserve_path at hres
    by_cases hav : tm.is_path_available x rx = true
    · rw [if_pos hav] at hres
      have h2 : tm' =
          { tm.clear_reservations x with
              reserved_paths :=
                ainsert (tm.clear_reservations x).reserved_paths x rx } :=
        (Prod.mk.injEq _ _ _ _ |>.mp hres).2.symm
      rw [h2]
      exact ainsert_mem_self _ _ _
    · rw [if_neg hav] at hres
      exact absurd ((Prod.mk.injEq _ _ _ _).mp hres).1 Bool.false_ne_true
  · intro tm₂ hmem y hyx ry hr0 hr1
    obtain ⟨t2, rfl⟩ : ∃ t2, ry = b :: a :: t2 := by
      cases ry with
      | nil => simp at hr0
      | cons c t =>
        cases t with
        | nil => simp at hr1
        | cons d t3 =>
          have hc : c = b := by simpa using hr0
          have hd : d = a := by simpa using hr1
          exact ⟨t3, by rw [hc, hd]⟩
    obtain ⟨rs, hrx⟩ : ∃ rs, rx = a :: b :: rs := by
      cases rx with
      | nil => simp at h0
      | cons z zs =>
        cases zs with
        | nil => simp at h1
        | cons w ws =>
          have hz : z = a := by simpa using h0
          have hw : w = b := by simpa using h1
          exact ⟨ws, by rw [hz, hw]⟩
    have hlen : 1 < rx.length := by
      rw [hrx]
      simp
    have hget0 : rx.getD 0 0 = a := by
      rw [hrx]
      rfl
    have hget1 : rx.getD 1 0 = b := by
      rw [hrx]
      rfl
    have hany : tm₂.reserved_paths.any (fun pr =>
        decide (pr.1 ≠ y) && decide (1 < pr.2.length) &&
        decide (edgeKey (pr.2.getD 0 0) (pr.2.getD 1 0) = edgeKey b a) &&
        decide (pr.2.getD 0 0 = a) && decide (pr.2.getD 1 0 = b)) = true := by
      rw [List.any_eq_true]
      refine ⟨(x, rx), hmem, ?_⟩
      have hxky : x ≠ y := fun h => hyx h.symm
      simp only [Bool.and_eq_true, decide_eq_true_eq]
      refine ⟨⟨⟨⟨hxky, hlen⟩, ?_⟩, hget0⟩, hget1⟩
      rw [hget0, hget1]
      exact edgeKey_comm a b
    have hnav : tm₂.is_path_available y (b :: a :: t2) = false := by
      simp only [TrafficManager.is_path_available]
      by_cases hv : tm₂.is_vertex_occupied a (some y) = true
      · rw [if_pos hv]
      · rw [if_neg hv]
        by_cases he : tm₂.is_edge_occupied b a (some y) = true
        · rw [if_pos he]
        · rw [if_neg he]
          rw [hany]
          rfl
    unfold TrafficManager.reserve_path
    rw [if_neg (by rw [hnav]; simp)]
  · intro tm₀ rid p hfail
    unfold TrafficManager.reserve_path at hfail ⊢
    by_cases hav : tm₀.is_path_available rid p = true
    · rw [if_pos hav] at hfail
      simp at hfail
    · rw [if_neg hav]

/-- Witness for C2: on an empty coordinator agent 0 reserves `[0, 1]`; the
subsequent opposite-direction reservation `[1, 0]` by agent 1 fails and
changes nothing. -/
theorem C2_reserve_headon_excludes_witness :
    (TrafficManager.mk0.reserve_path 0 [0, 1]).2.reserve_path 1 [1, 0]
      = (false, (TrafficManager.mk0.reserve_path 0 [0, 1]).2) := by
  have h := C2_reserve_headon_excludes TrafficManager.mk0 0 [0, 1] 0 1 rfl rfl
    (TrafficManager.mk0.reserve_path 0 [0, 1]).2 (by with_unfolding_all rfl)
  exact h.2.1 _ h.1 1 (by decide) [1, 0] rfl rfl

/-! ### The coordinator tick (`TrafficManager.update`) -/

/-- First pass of `TrafficManager.update`: clear both occupancy maps and
rebuild them from the robots' current positions (a moving robot also
occupies the lane to its next vertex). -/
def TrafficManager.occupancy_pass (tm : TrafficManager) (robots : List Robot) :
    TrafficManager :=
  robots.foldl
    (fun acc r =>
      let acc1 :=
        { acc with vertex_occupancy := ainsert acc.vertex_occupancy r.current_vertex r.id }
      if r.status = .moving then
        match r.next_vertex with
        | some nv =>
          { acc1 with
              edge_occupancy := ainsert acc1.edge_occupancy (edgeKey r.current_vertex nv) r.id }
        | none => acc1
      else acc1)
    { tm with edge_occupancy := [], vertex_occupancy := [] }

/-- The head-on / crossing scan of the second pass of
`TrafficManager.update` (the inner `for other_robot in robots` loop, which
only ever sets `is_blocked`; `break` is equivalent to the existential). -/
def tmConflictScan (robots : List Robot) (rid current nxt : ℕ) : Bool :=
  robots.any fun o =>
    decide (o.id ≠ rid) &&
    ((decide (o.current_vertex = nxt) &&
        (if o.status = .moving ∨ o.status = .waiting then
          decide (o.next_vertex = some current) && decide (rid > o.id)
        else true)) ||
      (decide (o.current_vertex ≠ nxt) && decide (o.status = .moving) &&
        decide (o.next_vertex = some nxt) && decide (rid > o.id)))

/-- The `is_blocked` computation of the second pass (next vertex occupied,
or lane occupied, or conflict scan). -/
def tmIsBlocked (tm : TrafficManager) (robots : List Robot) (r : Robot)
    (current nxt : ℕ) : Bool :=
  tm.is_vertex_occupied nxt (some r.id) ||
    tm.is_edge_occupied current nxt (some r.id) ||
    tmConflictScan robots r.id current nxt

/-- One robot of the second pass of `TrafficManager.update`: inspect robot
`i` against the current state and either make it wait, resume it, or leave
it alone.  Earlier robots' `wait()`/`resume()` calls are visible to later
ones, as in the source's in-place mutation. -/
def tmSecondStep (st : TrafficManager × List Robot) (i : ℕ) :
    TrafficManager × List Robot :=
  match st.2.get? i with
  | none => st
  | some r =>
    if r.status = .moving ∨ r.status = .waiting then
      let path := (alookup st.1.reserved_paths r.id).getD []
      if path ≠ [] ∧ r.path_index < path.length - 1 then
        let current := path.getD r.path_index 0
        let nxt := path.getD (r.path_index + 1) 0
        if tmIsBlocked st.1 st.2 r current nxt then
          if r.id ∈ st.1.waiting_robots then st
          else
            ({ st.1 with waiting_robots := st.1.waiting_robots ++ [r.id] },
              st.2.set i r.wait)
        else
          if r.id ∈ st.1.waiting_robots then
            ({ st.1 with
                waiting_robots := st.1.waiting_robots.filter (fun z => decide (z ≠ r.id)) },
              st.2.set i r.resume)
          else st
      else st
    else st

/-- `TrafficManager.update`: rebuild occupancy, then run the conflict pass
over the robots in order, returning the mutated coordinator and robots. -/
def TrafficManager.update (tm : TrafficManager) (robots : List Robot) :
    TrafficManager × List Robot :=
  (List.range robots.length).foldl tmSecondStep (tm.occupancy_pass robots, robots)

/-- A robot positioned at `u`, moving with next vertex `v` along route
`[u, v]` (route index 0). -/
def headOnBot (i u v : ℕ) : Robot :=
  { Robot.mk0 i u with status := .moving, path := [u, v], next_vertex := some v }

/-! ### Claim C6: symmetric head-on conflict resolution -/

/-- C6 counterexample: two moving agents with ids 0 and 1 whose next steps
target each other's positions (routes `[0, 1]` and `[1, 0]` reserved in
opposite directions).  After the coordinator tick BOTH agents are
`Waiting`: the lower-id agent 0 does not proceed, refuting the claim that
only the higher-id agent yields. -/
theorem C6_headon_counterexample :
    ((TrafficManager.mk [] [] [(0, [0, 1]), (1, [1, 0])] []).update
        [headOnBot 0 0 1, headOnBot 1 1 0]).2.map Robot.status
      = [.waiting, .waiting] := by
  with_unfolding_all rfl

/-- C6 amended: in a symmetric head-on conflict (each agent's next step
targets the other's current position), the coordinator makes BOTH agents
wait, whatever their ids: each agent's next vertex is found occupied by the
other, so the higher-id-yields tie-break never gets to let the lower id
proceed. -/
theorem C6_headon_both_wait (i j u v : ℕ) (hij : i ≠ j) (huv : u ≠ v)
    (E : List ((ℕ × ℕ) × ℕ)) (V : List (ℕ × ℕ)) :
    ((TrafficManager.mk E V [(i, [u, v]), (j, [v, u])] []).update
        [headOnBot i u v, headOnBot j v u]).2.map Robot.status
      = [.waiting, .waiting] := by
  have hek : edgeKey v u = edgeKey u v := edgeKey_comm v u
  have hji : j ≠ i := Ne.symm hij
  have hvu : v ≠ u := Ne.symm huv
  simp only [TrafficManager.update, TrafficManager.occupancy_pass,
    List.length_cons, List.length_nil, List.range_succ, List.range_zero,
    List.nil_append, List.cons_append, List.foldl_cons, List.foldl_nil,
    headOnBot, Robot.mk0]
  simp only [tmSecondStep, tmIsBlocked, tmConflictScan,
    TrafficManager.is_vertex_occupied, TrafficManager.is_edge_occupied,
    alookup, ainsert, List.get?, Robot.wait, Robot.resume,
    hij, hji, huv, hvu, hek, if_true, if_false,
    List.getD, List.get?_cons_zero, List.get?_cons_succ, Option.getD_some,
    List.set]
  simp [hij, hji, huv, hvu, Robot.wait]

/-- Witness for C6 amended at concrete ids 3 and 5 on lane 7-9. -/
theorem C6_headon_both_wait_witness :
    ((TrafficManager.mk [] [] [(3, [7, 9]), (5, [9, 7])] []).update
        [headOnBot 3 7 9, headOnBot 5 9 7]).2.map Robot.status
      = [.waiting, .waiting] :=
  C6_headon_both_wait 3 5 7 9 (by decide) (by decide) [] []

/-! ## Topology graph (`src/models/nav_graph.py`)

The graph is the vertex-id list of `self.vertices` (insertion order), the
lane list, the charger flags, and the abstracted Euclidean metric `dist`
(see the header comment).  `add_edge` stores `dist v1 v2` as the lane
weight, and `_euclidean_distance` computes the same function, so both are
modelled by the single field `dist`. -/

structure NavGraph where
  verts : List ℕ
  edges : List (ℕ × ℕ)
  dist : ℕ → ℕ → ℚ
  chargers : List ℕ

/-- Undirected adjacency derived from the lane list. -/
def NavGraph.adjB (g : NavGraph) (u v : ℕ) : Bool :=
  g.edges.contains (u, v) || g.edges.contains (v, u)

/-- `NavGraph._euclidean_distance`: `none` models the `KeyError` raised
when either vertex id is missing from `self.vertices`. -/
def NavGraph.euclid (g : NavGraph) (u v : ℕ) : Option ℚ :=
  if u ∈ g.verts ∧ v ∈ g.verts then some (g.dist u v) else none

/-- `NavGraph.get_neighbors`: `networkx` raises `NetworkXError` for an
unknown node; neighbours are listed in the embedding's vertex order. -/
def NavGraph.get_neighbors (g : NavGraph) (vertex_id : ℕ) :
    Except String (List ℕ) :=
  if vertex_id ∈ g.verts then
    .ok (g.verts.filter (fun u => g.adjB vertex_id u))
  else .error "NetworkXError"

/-- `NavGraph.get_edge_weight`: `None` when the lane is absent (the
`KeyError` is caught in the source). -/
def NavGraph.get_edge_weight (g : NavGraph) (v1 v2 : ℕ) : Option ℚ :=
  if g.adjB v1 v2 then some (g.dist v1 v2) else none

/-- `NavGraph.get_charging_stations`. -/
def NavGraph.get_charging_stations (g : NavGraph) : List ℕ :=
  g.verts.filter (fun v => g.chargers.contains v)

/-- `blocked_edges and (min, max) in blocked_edges` check of the A* loop
(an empty exclusion set is falsy in Python, which coincides with
`contains` on `[]`). -/
def blockedB (blocked : List (ℕ × ℕ)) (u v : ℕ) : Bool :=
  blocked.contains (edgeKey u v)

/-! ### The A* search of `get_shortest_path` -/

structure AStarState where
  openS : List ℕ
  closedS : List ℕ
  gS : ℕ → Option ℚ
  fS : ℕ → Option ℚ
  cameFrom : ℕ → Option ℕ

/-- Strict comparison of f-scores where a missing score is `inf`. -/
def oLT : Option ℚ → Option ℚ → Bool
  | some a, some b => decide (a < b)
  | some _, none => true
  | none, _ => false

/-- `min(open_set, key=lambda v: f_score.get(v, float("inf")))`: first
minimal element of the list (one admissible iteration order of the set). -/
def pickMin (f : ℕ → Option ℚ) : List ℕ → ℕ
  | [] => 0
  | x :: xs => xs.foldl (fun best v => if oLT (f v) (f best) then v else best) x

/-- `tentative_g_score >= g_score.get(neighbor, inf)` (false when the
neighbour has no g-score yet). -/
def tentSkip (gnb : Option ℚ) (tent : ℚ) : Bool :=
  match gnb with
  | none => false
  | some gv => decide (gv ≤ tent)

/-- Path reconstruction (`while current in came_from` followed by
`path.append(start)` and reversal), written tail-first; the fuel stands in
for the source's unbounded loop and is shown sufficient in the proofs. -/
def reconstruct (cf : ℕ → Option ℕ) (start : ℕ) : ℕ → ℕ → Option (List ℕ)
  | 0, _ => none
  | fuel + 1, cur =>
    match cf cur with
    | none => some [start]
    | some prev => (reconstruct cf start fuel prev).map (fun p => p ++ [cur])

/-- Relaxation of one neighbour in the A* loop body: skip closed or
blocked neighbours, then add-or-improve with `came_from`, `g_score` and
`f_score` updated together. -/
def relaxNb (g : NavGraph) (blocked : List (ℕ × ℕ)) (endv current : ℕ)
    (gc : ℚ) (st : AStarState) (nb : ℕ) : Except String AStarState :=
  if nb ∈ st.closedS then .ok st
  else if blockedB blocked current nb then .ok st
  else
    match g.get_edge_weight current nb with
    | none => .error "TypeError"
    | some w =>
      if nb ∈ st.openS then
        if tentSkip (st.gS nb) (gc + w) then .ok st
        else
          match g.euclid nb endv with
          | none => .error "KeyError"
          | some h =>
            .ok { st with
                    cameFrom := fun z => if z = nb then some current else st.cameFrom z
                    gS := fun z => if z = nb then some (gc + w) else st.gS z
                    fS := fun z => if z = nb then some (gc + w + h) else st.fS z }
      else
        match g.euclid nb endv with
        | none => .error "KeyError"
        | some h =>
          .ok { st with
                  openS := st.openS ++ [nb]
                  cameFrom := fun z => if z = nb then some current else st.cameFrom z
                  gS := fun z => if z = nb then some (gc + w) else st.gS z
                  fS := fun z => if z = nb then some (gc + w + h) else st.fS z }

/-- `for neighbor in self.get_neighbors(current)`. -/
def relaxList (g : NavGraph) (blocked : List (ℕ × ℕ)) (endv current : ℕ)
    (gc : ℚ) : List ℕ → AStarState → Except String AStarState
  | [], st => .ok st
  | nb :: rest, st =>
    match relaxNb g blocked endv current gc st nb with
    | .error e => .error e
    | .ok st1 => relaxList g blocked endv current gc rest st1

/-- The `while open_set` loop of `get_shortest_path`.  The fuel models the
loop's (provable) termination: `verts.length + 1` iterations always
suffice because each iteration closes a fresh vertex. -/
def astarLoop (g : NavGraph) (blocked : List (ℕ × ℕ)) (start endv : ℕ) :
    ℕ → AStarState → Except String (Option (List ℕ))
  | 0, _ => .error "fuel"
  | fuel + 1, st =>
    if st.openS = [] then .ok none
    else if pickMin st.fS st.openS = endv then
      match reconstruct st.cameFrom start (st.closedS.length + 1)
          (pickMin st.fS st.openS) with
      | none => .error "cycle"
      | some p => .ok (some p)
    else
      match st.gS (pickMin st.fS st.openS) with
      | none => .error "KeyError"
      | some gc =>
        match g.get_neighbors (pickMin st.fS st.openS) with
        | .error e => .error e
        | .ok nbs =>
          match relaxList g blocked endv (pickMin st.fS st.openS) gc nbs
              { st with openS := st.openS.erase (pickMin st.fS st.openS),
                        closedS := st.closedS ++ [pickMin st.fS st.openS] } with
          | .error e => .error e
          | .ok st2 => astarLoop g blocked start endv fuel st2

/-- `NavGraph.get_shortest_path`: trivial route when `start == end`
(before any existence check), otherwise A* with the Euclidean heuristic;
the initial `f_score[start]` computation raises `KeyError` for a missing
vertex id. -/
def NavGraph.get_shortest_path (g : NavGraph) (start endv : ℕ)
    (blocked : List (ℕ × ℕ)) : Except String (Option (List ℕ)) :=
  if start = endv then .ok (some [start])
  else
    match g.euclid start endv with
    | none => .error "KeyError"
    | some h0 =>
      astarLoop g blocked start endv (g.verts.length + 1)
        { openS := [start], closedS := [],
          gS := fun z => if z = start then some 0 else none,
          fS := fun z => if z = start then some h0 else none,
          cameFrom := fun _ => none }

/-! ### Routes and weights (specification vocabulary) -/

/-- Adjacency that also avoids an exclusion set of lanes. -/
def effAdjB (g : NavGraph) (blocked : List (ℕ × ℕ)) (u v : ℕ) : Bool :=
  g.adjB u v && ! blockedB blocked u v

/-- Consecutive sites of the list are adjacent (and unblocked). -/
def chainB (g : NavGraph) (blocked : List (ℕ × ℕ)) : List ℕ → Bool
  | u :: v :: rest => effAdjB g blocked u v && chainB g blocked (v :: rest)
  | _ => true

/-- `p` is a route from `a` to `b` in `g` avoiding `blocked`. -/
def isRouteB (g : NavGraph) (blocked : List (ℕ × ℕ)) (a b : ℕ)
    (p : List ℕ) : Bool :=
  decide (p.head? = some a) && decide (p.getLast? = some b) && chainB g blocked p

/-- Cumulative lane weight of a route. -/
def routeW (g : NavGraph) : List ℕ → ℚ
  | u :: v :: rest => g.dist u v + routeW g (v :: rest)
  | _ => 0

/-- Wellformedness of a loaded graph: every lane joins existing sites, and
the abstracted metric is non-negative and satisfies the triangle
inequality on the sites (both hold for the Euclidean distance). -/
structure NavGraph.WF (g : NavGraph) : Prop where
  edge_mem : ∀ e ∈ g.edges, e.1 ∈ g.verts ∧ e.2 ∈ g.verts
  dist_nonneg : ∀ u ∈ g.verts, ∀ v ∈ g.verts, 0 ≤ g.dist u v
  dist_tri : ∀ u ∈ g.verts, ∀ v ∈ g.verts, ∀ w ∈ g.verts,
    g.dist u w ≤ g.dist u v + g.dist v w

/-! ### Claim C4: queries with nonexistent site ids -/

/-- A concrete two-site graph used for the C4 counterexample. -/
def g4 : NavGraph :=
  { verts := [0, 1], edges := [(0, 1)], dist := fun _ _ => 1, chargers := [] }

/-- C4 counterexample: on a graph with sites `{0, 1}`, the query
`get_shortest_path(5, 0)` raises `KeyError` (from `_euclidean_distance`)
and `get_neighbors(5)` raises `NetworkXError`, instead of reporting a
not-found result. -/
theorem C4_counterexample :
    g4.get_shortest_path 5 0 [] = .error "KeyError" ∧
    g4.get_neighbors 5 = .error "NetworkXError" := by
  constructor <;> with_unfolding_all rfl

/-- C4 amended: a `get_shortest_path` query naming a missing site id with
distinct endpoints raises `KeyError` rather than returning not-found;
`get_shortest_path(A, A)` returns `[A]` without validating `A` at all;
`get_neighbors` raises for a missing site; only `get_edge_weight` reports
a missing lane as `None`. -/
theorem C4_missing_site_raises (g : NavGraph) :
    (∀ s e bl, s ≠ e → s ∉ g.verts ∨ e ∉ g.verts →
      g.get_shortest_path s e bl = .error "KeyError") ∧
    (∀ s bl, g.get_shortest_path s s bl = .ok (some [s])) ∧
    (∀ v, v ∉ g.verts → g.get_neighbors v = .error "NetworkXError") ∧
    (∀ v1 v2, g.adjB v1 v2 = false → g.get_edge_weight v1 v2 = none) := by
  refine ⟨?_, ?_, ?_, ?_⟩
  · intro s e bl hne hmiss
    unfold NavGraph.get_shortest_path
    rw [if_neg hne]
    have : g.euclid s e = none := by
      unfold NavGraph.euclid
      rw [if_neg]
      intro ⟨hs, he⟩
      rcases hmiss with h | h
      · exact h hs
      · exact h he
    rw [this]
  · intro s bl
    unfold NavGraph.get_shortest_path
    rw [if_pos rfl]
  · intro v hv
    unfold NavGraph.get_neighbors
    rw [if_neg hv]
  · intro v1 v2 hadj
    unfold NavGraph.get_edge_weight
    rw [hadj]
    rfl

/-- Witness for C4 amended, applied on the two-site graph at the missing
id 7. -/
theorem C4_missing_site_raises_witness :
    g4.get_shortest_path 7 1 [] = .error "KeyError" ∧
    g4.get_shortest_path 7 7 [] = .ok (some [7]) :=
  ⟨(C4_missing_site_raises g4).1 7 1 [] (by decide) (Or.inl (by decide)),
   (C4_missing_site_raises g4).2.1 7 []⟩

/-! ### `NavGraph.get_alternative_paths` -/

/-- The lane keys `(min(v1,v2), max(v1,v2))` of the consecutive pairs of a
path, in order (`for i in range(len(last_path) - 1)`). -/
def laneList : List ℕ → List (ℕ × ℕ)
  | u :: v :: rest => edgeKey u v :: laneList (v :: rest)
  | _ => []

/-- The `while len(paths) < max_paths` loop: block every lane of the last
found path (the exclusion set accumulates across iterations) and search
again.  Each iteration appends exactly one path, so `max_paths` fuel always
suffices and the fuel-out branch coincides with the loop guard. -/
def altLoop (g : NavGraph) (start endv : ℕ) (max_paths : ℕ) :
    ℕ → List (List ℕ) → List (ℕ × ℕ) → Except String (List (List ℕ))
  | 0, paths, _ => .ok paths
  | fuel + 1, paths, blocked =>
    if paths.length < max_paths then
      match g.get_shortest_path start endv
          (blocked ++ laneList (paths.getLastD [])) with
      | .error e => .error e
      | .ok none => .ok paths
      | .ok (some p) =>
        altLoop g start endv max_paths fuel (paths ++ [p])
          (blocked ++ laneList (paths.getLastD []))
    else .ok paths

/-- `NavGraph.get_alternative_paths`. -/
def NavGraph.get_alternative_paths (g : NavGraph) (start endv : ℕ)
    (max_paths : ℕ) : Except String (List (List ℕ)) :=
  if start = endv then .ok [[start]]
  else
    match g.get_shortest_path start endv [] with
    | .error e => .error e
    | .ok none => .ok []
    | .ok (some p) => altLoop g start endv max_paths max_paths [p] []

/-! ## Fleet orchestrator (`src/controllers/fleet_manager.py`) -/

/-- One entry of the `moving_robots` map of `FleetManager.assign_task`. -/
structure MovingInfo where
  mcur : ℕ
  mnext : ℕ
  mpath : List ℕ
deriving DecidableEq, Repr

/-- The orchestrator state the claims touch: the robots dict and the
traffic manager (graph, GUI, logger and clock are external). -/
structure FleetState where
  robots : List (ℕ × Robot)
  tm : TrafficManager
deriving DecidableEq, Repr

/-- Lines 113-132 of `assign_task`: gather blocked lanes (other moving
robots' current lanes), blocked sites (other stationary robots' sites) and
the in-flight robots map, over the robots dict in insertion order.
Returns `(blocked_edges, blocked_vertices, moving_robots)`. -/
def fmGather (fs : FleetState) (robot_id : ℕ) :
    List (ℕ × ℕ) × List ℕ × List MovingInfo :=
  fs.robots.foldl
    (fun acc kv =>
      let r := kv.2
      if r.id ≠ robot_id then
        if r.status = .moving ∧ r.next_vertex ≠ none then
          match r.next_vertex with
          | some nv =>
            (acc.1 ++ [edgeKey r.current_vertex nv], acc.2.1,
              acc.2.2 ++ [⟨r.current_vertex, nv,
                (alookup fs.tm.reserved_paths r.id).getD []⟩])
          | none => acc
        else if ¬(r.status = .moving ∨ r.status = .waiting) then
          (acc.1, acc.2.1 ++ [r.current_vertex], acc.2.2)
        else acc
      else acc)
    ([], [], [])

/-- `min(alternative_paths, key=len)` (first minimal in list order). -/
def minByLen : List (List ℕ) → List ℕ
  | [] => []
  | p :: ps => ps.foldl (fun best q => if q.length < best.length then q else best) p

/-- Lines 146-176 of `assign_task`: score one candidate route
(`(path_score, is_blocked, has_collision)`). -/
def scorePath (blockedV : List ℕ) (blockedE : List (ℕ × ℕ))
    (movers : List MovingInfo) (shortestLen : ℕ) (p : List ℕ) :
    ℕ × Bool × Bool :=
  let base :=
    (List.range (p.length - 1)).foldl
      (fun acc i =>
        let cur := p.getD i 0
        let nxt := p.getD (i + 1) 0
        let acc1 :=
          if nxt ∈ blockedV then (acc.1 + 100, true, acc.2.2) else acc
        let acc2 :=
          if edgeKey cur nxt ∈ blockedE then (acc1.1 + 50, true, acc1.2.2) else acc1
        movers.foldl
          (fun a m =>
            if i < m.mpath.length ∧ m.mpath.getD i 0 = nxt then
              (a.1 + 75, a.2.1, true)
            else a)
          acc2)
      (p.length, false, false)
  if (p.length : ℚ) > 3 / 2 * (shortestLen : ℚ) then
    (base.1 + 150, base.2.1, base.2.2)
  else base

/-- Lines 139-185 of `assign_task`: try candidates in order, reserving
better-scored collision-free ones (successful reservations mutate the
traffic manager), with the early `break` for good unblocked paths.
Returns `(traffic manager, best_path, best_score, path)` where the last
component is the loop variable `path` at exit — the fallback below reads
this leaked variable. -/
def tryCandidates (robot_id : ℕ) (blockedV : List ℕ) (blockedE : List (ℕ × ℕ))
    (movers : List MovingInfo) (shortestLen : ℕ) :
    List (List ℕ) → TrafficManager → Option (List ℕ) → Option ℕ → List ℕ →
    TrafficManager × Option (List ℕ) × Option ℕ × List ℕ
  | [], tm, best, bscore, lastIter => (tm, best, bscore, lastIter)
  | p :: rest, tm, best, bscore, _ =>
    if p.length < 2 then
      tryCandidates robot_id blockedV blockedE movers shortestLen rest tm best bscore p
    else
      let sc := scorePath blockedV blockedE movers shortestLen p
      let better : Bool :=
        match bscore with
        | none => true
        | some b => decide (sc.1 < b)
      if better ∧ sc.2.2 = false then
        match tm.reserve_path robot_id p with
        | (true, tm1) =>
          if sc.2.1 = false ∧ (p.length : ℚ) ≤ 6 / 5 * (shortestLen : ℚ) then
            (tm1, some p, some sc.1, p)
          else
            tryCandidates robot_id blockedV blockedE movers shortestLen rest tm1
              (some p) (some sc.1) p
        | (false, _) =>
          tryCandidates robot_id blockedV blockedE movers shortestLen rest tm
            best bscore p
      else
        tryCandidates robot_id blockedV blockedE movers shortestLen rest tm
          best bscore p

/-- Lines 197-198 of `assign_task`: the fallback's blocked test.  Note it
reads the vertices of `shortest_path` but the LANES of the leaked loop
variable `path` (the last scored candidate), not of the shortest route. -/
def fmStale (blockedV : List ℕ) (blockedE : List (ℕ × ℕ))
    (shortest lastIter : List ℕ) : Bool :=
  (List.range (shortest.length - 1)).any
    (fun i =>
      decide (shortest.getD i 0 ∈ blockedV) ||
      decide (edgeKey (lastIter.getD i 0) (lastIter.getD (i + 1) 0) ∈ blockedE))

/-- Lines 194-210 of `assign_task`: fall back to the plain shortest route;
if it reserves, assign it (result unchecked) and make the robot wait when
the stale blocked test fires. -/
def fmFallback (fs : FleetState) (robot_id : ℕ) (robot : Robot)
    (tm1 : TrafficManager) (blockedV : List ℕ) (blockedE : List (ℕ × ℕ))
    (shortest lastIter : List ℕ) : Bool × FleetState :=
  match tm1.reserve_path robot_id shortest with
  | (true, tm2) =>
    let robot1 := (robot.assign_task shortest).2
    let robot2 :=
      if fmStale blockedV blockedE shortest lastIter then robot1.wait else robot1
    (true, ⟨ainsert fs.robots robot_id robot2, tm2⟩)
  | (false, tm2) => (false, ⟨fs.robots, tm2⟩)

/-- `FleetManager.assign_task` (notifications and logging dropped; the
graph is a parameter instead of a field). -/
def fmAssignTask (g : NavGraph) (fs : FleetState) (robot_id destination : ℕ) :
    Except String (Bool × FleetState) :=
  match alookup fs.robots robot_id with
  | none => .ok (false, fs)
  | some robot =>
    if destination ∉ g.verts then .ok (false, fs)
    else if ¬(robot.status = .idle ∨ robot.status = .task_complete) then
      .ok (false, fs)
    else if robot.is_battery_dead then .ok (false, fs)
    else
      match g.get_alternative_paths robot.current_vertex destination 3 with
      | .error e => .error e
      | .ok [] => .ok (false, fs)
      | .ok (p0 :: ps) =>
        let gathered := fmGather fs robot_id
        let shortest := minByLen (p0 :: ps)
        let res := tryCandidates robot_id gathered.2.1 gathered.1 gathered.2.2
          shortest.length (p0 :: ps) fs.tm none none []
        match res.2.1 with
        | some bp =>
          match robot.assign_task bp with
          | (true, robot1) => .ok (true, ⟨ainsert fs.robots robot_id robot1, res.1⟩)
          | (false, _) =>
            .ok (fmFallback fs robot_id robot res.1 gathered.2.1 gathered.1
              shortest res.2.2.2)
        | none =>
          .ok (fmFallback fs robot_id robot res.1 gathered.2.1 gathered.1
            shortest res.2.2.2)

/-! ### Claim C8 counterexample (`max_count = 0`) -/

/-- C8 counterexample: with `max_count = 0` the source still returns the
first found route (it is appended before the loop guard is ever checked),
so the result has one route, more than `max_count`. -/
theorem C8_counterexample :
    g4.get_alternative_paths 0 1 0 = .ok [[0, 1]] ∧
    ¬ (([[0, 1]] : List (List ℕ)).length ≤ 0) := by
  constructor
  · with_unfolding_all rfl
  · decide

/-! ### Claim C5: the charging scan of `FleetManager.update` -/

/-- `len(self.nav_graph.get_shortest_path(robot.current_vertex, v))` as
used in the `min(...)` key of the charging scan: `len(None)` raises
`TypeError` when the station is unreachable. -/
def pathLenKey (g : NavGraph) (cur v : ℕ) : Except String ℕ :=
  match g.get_shortest_path cur v [] with
  | .error e => .error e
  | .ok none => .error "TypeError"
  | .ok (some p) => .ok p.length

/-- Tail of `min(charging_stations, key=...)`: keys are evaluated for every
remaining station in order, first minimal wins. -/
def minByPathLenAux (g : NavGraph) (cur : ℕ) :
    ℕ → ℕ → List ℕ → Except String ℕ
  | best, _, [] => .ok best
  | best, bestLen, s :: rest =>
    match pathLenKey g cur s with
    | .error e => .error e
    | .ok l =>
      if l < bestLen then minByPathLenAux g cur s l rest
      else minByPathLenAux g cur best bestLen rest

/-- `min(charging_stations, key=lambda v: len(get_shortest_path(...)))`. -/
def minByPathLen (g : NavGraph) (cur : ℕ) : List ℕ → Except String ℕ
  | [] => .error "ValueError"
  | s :: rest =>
    match pathLenKey g cur s with
    | .error e => .error e
    | .ok l => minByPathLenAux g cur s l rest

/-- The per-robot body of the charging scan in `FleetManager.update`
(lines 246-267): a low-battery, not-charging, not-dead robot either starts
charging at a charger site, or is routed via `assign_task` to the station
with the shortest path (by site count); with no station the scan does
nothing. -/
def fmChargeScanRobot (g : NavGraph) (fs : FleetState) (robot_id : ℕ) :
    Except String FleetState :=
  match alookup fs.robots robot_id with
  | none => .ok fs
  | some r =>
    if r.needs_charging ∧ ¬r.is_charging ∧ r.is_battery_dead = false then
      if g.chargers.contains r.current_vertex then
        .ok ⟨ainsert fs.robots robot_id r.start_charging, fs.tm⟩
      else
        let stations := g.verts.filter (fun v => g.chargers.contains v)
        if stations = [] then .ok fs
        else
          match minByPathLen g r.current_vertex stations with
          | .error e => .error e
          | .ok nearest =>
            match fmAssignTask g fs robot_id nearest with
            | .error e => .error e
            | .ok (_, fs1) => .ok fs1
    else .ok fs

/-- Two disconnected sites, the second one a charger. -/
def gC5 : NavGraph :=
  { verts := [0, 1], edges := [], dist := fun _ _ => 1, chargers := [1] }

/-- A single idle robot at site 0 with a low battery. -/
def fsC5 : FleetState :=
  { robots := [(0, { Robot.mk0 0 0 with battery_level := 15 })]
    tm := TrafficManager.mk0 }

/-- C5: when no charger is reachable from a low-battery agent's site, the
charging scan raises `TypeError` (`len(None)` inside the `min` key) instead
of reporting a failure: the code crashes on exactly the input the claim
says it must survive. -/
theorem C5_charge_scan_crashes :
    fmChargeScanRobot gC5 fsC5 0 = .error "TypeError" := by
  with_unfolding_all rfl

/-! ### Claim C7: the fallback of `FleetManager.assign_task` -/

/-- Coordinates of the C7 scenario sites (all on one line, so the
Euclidean distances are the rational differences). -/
def c7coord : ℕ → ℚ
  | 0 => 0
  | 1 => 1
  | 2 => 2
  | 3 => -1
  | 4 => 3
  | 5 => 4
  | 6 => 5
  | _ => 0

/-- The C7 scenario graph: two lane-disjoint routes 0-1-2 and 0-3-4-2 from
site 0 to site 2, a spur 5-2 and a spur 6-4. -/
def gC7 : NavGraph :=
  { verts := [0, 1, 2, 3, 4, 5, 6]
    edges := [(0, 1), (1, 2), (0, 3), (3, 4), (4, 2), (5, 2), (6, 4)]
    dist := fun u v => |c7coord u - c7coord v|
    chargers := [] }

/-- The idle robot being assigned. -/
def r7a : Robot := Robot.mk0 0 0

/-- A robot moving 2→1 (occupying the lane 1-2 of the shortest route),
reserved route `[5, 2, 1]` at index 1. -/
def r7b : Robot :=
  { Robot.mk0 1 2 with
      status := .moving
      path := [5, 2, 1]
      path_index := 1
      next_vertex := some 1 }

/-- A robot moving 6→4, reserved route `[6, 4]`. -/
def r7c : Robot :=
  { Robot.mk0 2 6 with
      status := .moving
      path := [6, 4]
      path_index := 0
      next_vertex := some 4 }

/-- The C7 scenario fleet state (occupancy as the coordinator tick would
rebuild it from these robots). -/
def fsC7 : FleetState :=
  { robots := [(0, r7a), (1, r7b), (2, r7c)]
    tm := { edge_occupancy := [((1, 2), 1), ((4, 6), 2)]
            vertex_occupancy := [(0, 0), (2, 1), (6, 2)]
            reserved_paths := [(1, [5, 2, 1]), (2, [6, 4])]
            waiting_robots := [] } }

/-- C7 counterexample: in the `fsC7` scenario no scored candidate is
reserved (both have anticipated collisions), the fallback reservation of
the shortest route `[0, 1, 2]` succeeds and the route is assigned — but
the agent is left `Moving`, not `Waiting`, even though the shortest
route's lane 1-2 is currently blocked (it is in the gathered blocked-lane
set): the fallback's blocked test reads the lanes of the leaked loop
variable (the last candidate `[0, 3, 4, 2]`) instead of the shortest
route's own lanes. -/
theorem C7_counterexample :
    (fmAssignTask gC7 fsC7 0 2).toOption.map
        (fun r => (r.1, alookup r.2.tm.reserved_paths 0,
          (alookup r.2.robots 0).map Robot.status))
      = some (true, some [0, 1, 2], some .moving) ∧
    edgeKey 1 2 ∈ (fmGather fsC7 0).1 ∧
    (tryCandidates 0 (fmGather fsC7 0).2.1 (fmGather fsC7 0).1
        (fmGather fsC7 0).2.2 3 [[0, 1, 2], [0, 3, 4, 2]] fsC7.tm
        none none []).2.1 = none := by
  refine ⟨?_, ?_, ?_⟩
  · with_unfolding_all rfl
  · with_unfolding_all decide
  · with_unfolding_all rfl

/-- C7 amended: whenever the guards pass, no scored candidate is accepted
(`best_path` is `None`), and the fallback reservation of the plain
shortest route succeeds, the shortest route is assigned to the agent — but
the agent is placed into `Waiting` exactly when the stale blocked test
`fmStale` fires, a test over the shortest route's vertices and the lanes
of the LAST SCORED CANDIDATE (the leaked loop variable), not whenever the
shortest route itself is currently blocked. -/
theorem C7_fallback_stale_check (g : NavGraph) (fs : FleetState)
    (robot_id destination : ℕ) (robot : Robot)
    (p0 : List ℕ) (ps : List (List ℕ))
    (res : TrafficManager × Option (List ℕ) × Option ℕ × List ℕ)
    (tm2 : TrafficManager)
    (hrob : alookup fs.robots robot_id = some robot)
    (hdest : destination ∈ g.verts)
    (hstatus : robot.status = .idle ∨ robot.status = .task_complete)
    (hdead : robot.is_battery_dead = false)
    (hcands : g.get_alternative_paths robot.current_vertex destination 3
      = .ok (p0 :: ps))
    (hres : tryCandidates robot_id (fmGather fs robot_id).2.1
        (fmGather fs robot_id).1 (fmGather fs robot_id).2.2
        (minByLen (p0 :: ps)).length (p0 :: ps) fs.tm none none [] = res)
    (hnone : res.2.1 = none)
    (hreserve : res.1.reserve_path robot_id (minByLen (p0 :: ps)) = (true, tm2)) :
    fmAssignTask g fs robot_id destination = .ok (true,
      ⟨ainsert fs.robots robot_id
          (if fmStale (fmGather fs robot_id).2.1 (fmGather fs robot_id).1
              (minByLen (p0 :: ps)) res.2.2.2 = true
            then ((robot.assign_task (minByLen (p0 :: ps))).2).wait
            else (robot.assign_task (minByLen (p0 :: ps))).2),
        tm2⟩) := by
  simp only [fmAssignTask, hrob]
  rw [if_neg (not_not_intro hdest), if_neg (not_not_intro hstatus),
    if_neg (by simp [hdead])]
  simp only [hcands]
  rw [hres, hnone]
  simp only [fmFallback]
  rw [hreserve]

/-- The coordinator state after the C7 fallback reservation. -/
def tmC7res : TrafficManager :=
  { edge_occupancy := [((1, 2), 1), ((4, 6), 2)]
    vertex_occupancy := [(2, 1), (6, 2)]
    reserved_paths := [(1, [5, 2, 1]), (2, [6, 4]), (0, [0, 1, 2])]
    waiting_robots := [] }

/-- Witness for C7 amended at the `fsC7` scenario. -/
theorem C7_fallback_stale_check_witness :
    fmAssignTask gC7 fsC7 0 2 = .ok (true,
      ⟨ainsert fsC7.robots 0
          (if fmStale (fmGather fsC7 0).2.1 (fmGather fsC7 0).1
              (minByLen [[0, 1, 2], [0, 3, 4, 2]])
              ((fsC7.tm, (none : Option (List ℕ)), (none : Option ℕ),
                ([0, 3, 4, 2] : List ℕ)) :
                TrafficManager × Option (List ℕ) × Option ℕ × List ℕ).2.2.2 = true
            then ((r7a.assign_task (minByLen [[0, 1, 2], [0, 3, 4, 2]])).2).wait
            else (r7a.assign_task (minByLen [[0, 1, 2], [0, 3, 4, 2]])).2),
        tmC7res⟩) :=
  C7_fallback_stale_check gC7 fsC7 0 2 r7a [0, 1, 2] [[0, 3, 4, 2]]
    (fsC7.tm, none, none, [0, 3, 4, 2]) tmC7res
    (by with_unfolding_all rfl) (by decide) (Or.inl (by with_unfolding_all rfl))
    (by with_unfolding_all rfl) (by with_unfolding_all rfl)
    (by with_unfolding_all rfl) rfl (by with_unfolding_all rfl)

/-! ## Correctness of the A* search

The remaining claims (C1, C8) need that `get_shortest_path` returns a
valid route of minimal cumulative weight.  The development follows the
classical invariant proof of Dijkstra / A* with a consistent heuristic:
closed vertices carry exact minimal distances, every neighbour of a closed
vertex is relaxed, and popping the open vertex of minimal f-score
preserves this. -/

theorem nodup_subset_length {l m : List ℕ} (hn : l.Nodup) (hs : l ⊆ m) :
    l.length ≤ m.length := by
  have h1 : l.toFinset.card = l.length := List.toFinset_card_of_nodup hn
  have h2 : l.toFinset ⊆ m.toFinset := by
    intro x hx
    simp only [List.mem_toFinset] at hx ⊢
    exact hs hx
  have h3 : m.toFinset.card ≤ m.length := m.toFinset_card_le
  have h4 : l.toFinset.card ≤ m.toFinset.card := Finset.card_le_card h2
  omega

/-! ### Route facts -/

theorem routeW_cons2 (g : NavGraph) (u v : ℕ) (rest : List ℕ) :
    routeW g (u :: v :: rest) = g.dist u v + routeW g (v :: rest) := rfl

theorem routeW_cons_headD (g : NavGraph) (x : ℕ) (q : List ℕ) (hq : q ≠ []) :
    routeW g (x :: q) = g.dist x (q.headD 0) + routeW g q := by
  cases q with
  | nil => exact absurd rfl hq
  | cons y ys => rfl

theorem routeW_append_cons (g : NavGraph) :
    ∀ (xs : List ℕ) (y : ℕ) (ys : List ℕ),
      routeW g (xs ++ y :: ys) = routeW g (xs ++ [y]) + routeW g (y :: ys)
  | [], y, ys => by simp [routeW]
  | [x], y, ys => by
    simp only [List.cons_append, List.nil_append]
    rw [routeW_cons2]
    have h1 : routeW g [x, y] = g.dist x y + routeW g [y] := rfl
    have h2 : routeW g [y] = 0 := rfl
    rw [h1, h2]
    ring
  | x :: w :: ws, y, ys => by
    simp only [List.cons_append]
    rw [routeW_cons2]
    have ih := routeW_append_cons g (w :: ws) y ys
    simp only [List.cons_append] at ih
    rw [routeW_cons2 g x w (ws ++ [y]), ih]
    ring

theorem routeW_snoc (g : NavGraph) :
    ∀ (xs : List ℕ) (u : ℕ), xs.getLast? = some u → ∀ (v : ℕ),
      routeW g (xs ++ [v]) = routeW g xs + g.dist u v
  | [], u, h, v => by simp at h
  | [x], u, h, v => by
    have hx : x = u := by simpa using h
    subst hx
    have h1 : routeW g ([x] ++ [v]) = g.dist x v + routeW g [v] := rfl
    have h2 : routeW g [v] = 0 := rfl
    have h3 : routeW g [x] = 0 := rfl
    rw [h1, h2, h3]
    ring
  | x :: y :: ys, u, h, v => by
    have h2 : (y :: ys).getLast? = some u := by
      rw [← h]
      exact (List.getLast?_cons_cons ..).symm
    have ih := routeW_snoc g (y :: ys) u h2 v
    simp only [List.cons_append] at ih ⊢
    rw [routeW_cons2, ih, routeW_cons2]
    ring

theorem chainB_cons2 (g : NavGraph) (bl : List (ℕ × ℕ)) (u v : ℕ)
    (rest : List ℕ) :
    chainB g bl (u :: v :: rest)
      = (effAdjB g bl u v && chainB g bl (v :: rest)) := rfl

theorem chainB_split (g : NavGraph) (bl : List (ℕ × ℕ)) :
    ∀ (pre : List ℕ) (y : ℕ) (suf : List ℕ),
      chainB g bl (pre ++ y :: suf) = true →
      chainB g bl (pre ++ [y]) = true ∧ chainB g bl (y :: suf) = true
  | [], y, suf, h => ⟨rfl, h⟩
  | [x], y, suf, h => by
    simp only [List.cons_append, List.nil_append] at h ⊢
    rw [chainB_cons2] at h
    have h2 := Bool.and_eq_true .. |>.mp h
    have h3 : chainB g bl [y] = true := rfl
    exact ⟨by rw [chainB_cons2]; exact Bool.and_eq_true .. |>.mpr ⟨h2.1, h3⟩, h2.2⟩
  | x :: w :: ws, y, suf, h => by
    simp only [List.cons_append] at h ⊢
    rw [chainB_cons2] at h
    have h2 := Bool.and_eq_true .. |>.mp h
    have h3 := chainB_split g bl (w :: ws) y suf (by simpa using h2.2)
    constructor
    · rw [chainB_cons2]
      refine Bool.and_eq_true .. |>.mpr ⟨h2.1, ?_⟩
      simpa using h3.1
    · exact h3.2

theorem chainB_snoc (g : NavGraph) (bl : List (ℕ × ℕ)) :
    ∀ (xs : List ℕ) (u : ℕ), xs.getLast? = some u →
      chainB g bl xs = true → ∀ (v : ℕ), effAdjB g bl u v = true →
      chainB g bl (xs ++ [v]) = true
  | [], u, h, _, _, _ => by simp at h
  | [x], u, h, _, v, hadj => by
    have hx : x = u := by simpa using h
    subst hx
    simp only [List.cons_append, List.nil_append]
    rw [chainB_cons2]
    exact Bool.and_eq_true .. |>.mpr ⟨hadj, rfl⟩
  | x :: y :: ys, u, h, hch, v, hadj => by
    have h2 : (y :: ys).getLast? = some u := by
      rw [← h]
      exact (List.getLast?_cons_cons ..).symm
    rw [chainB_cons2] at hch
    have h3 := Bool.and_eq_true .. |>.mp hch
    have h4 := chainB_snoc g bl (y :: ys) u h2 h3.2 v hadj
    simp only [List.cons_append] at h4 ⊢
    rw [chainB_cons2]
    exact Bool.and_eq_true .. |>.mpr ⟨h3.1, h4⟩

theorem head?_append_cons {α : Type} (l : List α) (a : α) (t : List α) :
    (l ++ a :: t).head? = (l ++ [a]).head? := by
  cases l <;> rfl

theorem adjB_mem {g : NavGraph} (hwf : g.WF) {u v : ℕ}
    (h : g.adjB u v = true) : u ∈ g.verts ∧ v ∈ g.verts := by
  unfold NavGraph.adjB at h
  rcases Bool.or_eq_true .. |>.mp h with h1 | h1
  · have := hwf.edge_mem (u, v) (by simpa using h1)
    exact this
  · have := hwf.edge_mem (v, u) (by simpa using h1)
    exact ⟨this.2, this.1⟩

theorem effAdjB_parts {g : NavGraph} {bl : List (ℕ × ℕ)} {u v : ℕ}
    (h : effAdjB g bl u v = true) :
    g.adjB u v = true ∧ blockedB bl u v = false := by
  unfold effAdjB at h
  have h2 := Bool.and_eq_true .. |>.mp h
  exact ⟨h2.1, by simpa using h2.2⟩

theorem effAdjB_mem {g : NavGraph} (hwf : g.WF) {bl : List (ℕ × ℕ)} {u v : ℕ}
    (h : effAdjB g bl u v = true) : u ∈ g.verts ∧ v ∈ g.verts :=
  adjB_mem hwf (effAdjB_parts h).1

theorem chainB_mem2 {g : NavGraph} (hwf : g.WF) {bl : List (ℕ × ℕ)} :
    ∀ {p : List ℕ}, chainB g bl p = true → 2 ≤ p.length →
      ∀ x ∈ p, x ∈ g.verts := by
  intro p
  induction p with
  | nil => intro _ h; simp at h
  | cons u rest ih =>
    intro hch hlen x hx
    cases rest with
    | nil => simp at hlen
    | cons v ws =>
      rw [chainB_cons2] at hch
      have h2 := Bool.and_eq_true .. |>.mp hch
      have hm := effAdjB_mem hwf h2.1
      rcases List.mem_cons.mp hx with rfl | hx2
      · exact hm.1
      cases ws with
      | nil =>
        rcases List.mem_cons.mp hx2 with rfl | hx3
        · exact hm.2
        · simp at hx3
      | cons w ws2 =>
        exact ih h2.2 (by simp) x hx2

theorem routeW_nonneg {g : NavGraph} (hwf : g.WF) {bl : List (ℕ × ℕ)} :
    ∀ {p : List ℕ}, chainB g bl p = true → (∀ x ∈ p, x ∈ g.verts) →
      0 ≤ routeW g p := by
  intro p
  induction p with
  | nil => intro _ _; simp [routeW]
  | cons u rest ih =>
    intro hch hm
    cases rest with
    | nil => simp [routeW]
    | cons v ws =>
      rw [chainB_cons2] at hch
      have h2 := Bool.and_eq_true .. |>.mp hch
      rw [routeW_cons2]
      have h3 : (0:ℚ) ≤ g.dist u v :=
        hwf.dist_nonneg u (hm u (by simp)) v (hm v (by simp))
      have h4 := ih h2.2 (fun x hx => hm x (List.mem_cons_of_mem _ hx))
      linarith

/-- Telescoped consistency of the heuristic along a route: the straight
distance to `endv` from the head is at most the route weight plus the
straight distance from the last site. -/
theorem dist_tele {g : NavGraph} (hwf : g.WF) {bl : List (ℕ × ℕ)}
    {endv : ℕ} (hend : endv ∈ g.verts) :
    ∀ (p : List ℕ) (a b : ℕ), chainB g bl p = true →
      p.head? = some a → p.getLast? = some b → (∀ x ∈ p, x ∈ g.verts) →
      g.dist a endv ≤ routeW g p + g.dist b endv
  | [], a, b, _, hhd, _, _ => by simp at hhd
  | [u], a, b, _, hhd, hlast, hm => by
    have ha : u = a := by simpa using hhd
    have hb : u = b := by simpa using hlast
    rw [← ha, ← hb]
    simp [routeW]
  | u :: v :: ws, a, b, hch, hhd, hlast, hm => by
    have ha : u = a := by simpa using hhd
    rw [chainB_cons2] at hch
    have h2 := Bool.and_eq_true .. |>.mp hch
    have hlast2 : (v :: ws).getLast? = some b := by
      rw [← hlast]
      exact (List.getLast?_cons_cons ..).symm
    have h3 := dist_tele hwf hend (v :: ws) v b h2.2 rfl hlast2
      (fun x hx => hm x (List.mem_cons_of_mem _ hx))
    have htri : g.dist u endv ≤ g.dist u v + g.dist v endv :=
      hwf.dist_tri u (hm u (by simp)) v (hm v (by simp)) endv hend
    rw [← ha, routeW_cons2]
    linarith

/-! ### f-score selection -/

theorem oLT_irrefl (a : Option ℚ) : oLT a a = false := by
  cases a with
  | none => rfl
  | some x => simp [oLT]

theorem oLT_trans {a b c : Option ℚ} (h1 : oLT a b = true)
    (h2 : oLT b c = true) : oLT a c = true := by
  cases a with
  | none => simp [oLT] at h1
  | some x =>
    cases b with
    | none => simp [oLT] at h2
    | some y =>
      cases c with
      | none => rfl
      | some z =>
        simp [oLT] at h1 h2 ⊢
        linarith

theorem oLT_trans_of_not {a b c : Option ℚ} (h1 : oLT b a = false)
    (h2 : oLT b c = true) : oLT a c = true := by
  cases b with
  | none => simp [oLT] at h2
  | some y =>
    cases a with
    | none => simp [oLT] at h1
    | some x =>
      cases c with
      | none => rfl
      | some z =>
        simp [oLT] at h1 h2 ⊢
        linarith

theorem pickMin_aux (f : ℕ → Option ℚ) :
    ∀ (xs : List ℕ) (acc : ℕ),
      (xs.foldl (fun best v => if oLT (f v) (f best) then v else best) acc
          ∈ acc :: xs) ∧
      (∀ y ∈ acc :: xs,
        oLT (f y)
          (f (xs.foldl (fun best v => if oLT (f v) (f best) then v else best) acc))
          = false)
  | [], acc => by
    constructor
    · simp
    · intro y hy
      have hy2 : y = acc := by simpa using hy
      subst hy2
      simp only [List.foldl_nil]
      exact oLT_irrefl _
  | v :: rest, acc => by
    have ihv := pickMin_aux f rest v
    have ihacc := pickMin_aux f rest acc
    simp only [List.foldl_cons]
    by_cases hlt : oLT (f v) (f acc) = true
    · rw [if_pos hlt]
      constructor
      · rcases List.mem_cons.mp ihv.1 with h | h
        · rw [h]
          exact List.mem_cons_of_mem _ (List.mem_cons_self _ _)
        · exact List.mem_cons_of_mem _ (List.mem_cons_of_mem _ h)
      · intro y hy
        rcases List.mem_cons.mp hy with rfl | hy2
        · cases hx : oLT (f y)
            (f (rest.foldl (fun best v => if oLT (f v) (f best) then v else best) v))
          · rfl
          · exfalso
            have h3 := ihv.2 v (List.mem_cons_self _ _)
            have h4 := oLT_trans hlt hx
            rw [h3] at h4
            exact Bool.false_ne_true h4
        · exact ihv.2 y hy2
    · rw [if_neg hlt]
      have hlt2 : oLT (f v) (f acc) = false := by
        cases h : oLT (f v) (f acc)
        · rfl
        · exact absurd h hlt
      constructor
      · rcases List.mem_cons.mp ihacc.1 with h | h
        · rw [h]
          exact List.mem_cons_self _ _
        · exact List.mem_cons_of_mem _ (List.mem_cons_of_mem _ h)
      · intro y hy
        rcases List.mem_cons.mp hy with rfl | hy2
        · exact ihacc.2 y (List.mem_cons_self _ _)
        · rcases List.mem_cons.mp hy2 with rfl | hy3
          · cases hx : oLT (f y)
              (f (rest.foldl (fun best v => if oLT (f v) (f best) then v else best) acc))
            · rfl
            · exfalso
              have h3 := ihacc.2 acc (List.mem_cons_self _ _)
              have h4 := oLT_trans_of_not hlt2 hx
              rw [h3] at h4
              exact Bool.false_ne_true h4
          · exact ihacc.2 y (List.mem_cons_of_mem _ hy3)

theorem pickMin_mem (f : ℕ → Option ℚ) (l : List ℕ) (hl : l ≠ []) :
    pickMin f l ∈ l := by
  cases l with
  | nil => exact absurd rfl hl
  | cons x xs => exact (pickMin_aux f xs x).1

theorem pickMin_min (f : ℕ → Option ℚ) (l : List ℕ) (y : ℕ) (hy : y ∈ l) :
    oLT (f y) (f (pickMin f l)) = false := by
  cases l with
  | nil => simp at hy
  | cons x xs => exact (pickMin_aux f xs x).2 y hy

/-! ### The A* loop invariant -/

theorem head?_append_left {α : Type} (l l2 : List α) (hl : l ≠ []) :
    (l ++ l2).head? = l.head? := by
  cases l with
  | nil => exact absurd rfl hl
  | cons x xs => rfl

theorem headD_of_head? {l : List ℕ} {a : ℕ} (h : l.head? = some a) :
    l.headD 0 = a := by
  cases l with
  | nil => simp at h
  | cons x xs => simpa using h

/-- The fields of the invariant shared between the stable state (between
loop iterations) and the mid-relaxation state. -/
structure SInv (g : NavGraph) (bl : List (ℕ × ℕ)) (start endv : ℕ)
    (st : AStarState) : Prop where
  open_sub : ∀ v ∈ st.openS, v ∈ g.verts
  closed_sub : ∀ v ∈ st.closedS, v ∈ g.verts
  open_nodup : st.openS.Nodup
  closed_nodup : st.closedS.Nodup
  disj : ∀ v ∈ st.openS, v ∉ st.closedS
  end_not_closed : endv ∉ st.closedS
  start_mem : start ∈ st.openS ∨ start ∈ st.closedS
  g_start : st.gS start = some 0
  g_open : ∀ v ∈ st.openS, ∃ x, st.gS v = some x
  g_closed : ∀ v ∈ st.closedS, ∃ x, st.gS v = some x
  g_dom : ∀ v x, st.gS v = some x → v ∈ st.openS ∨ v ∈ st.closedS
  g_nonneg : ∀ v x, st.gS v = some x → 0 ≤ x
  f_eq : ∀ v x, st.gS v = some x → st.fS v = some (x + g.dist v endv)
  sound : ∀ v x, st.gS v = some x →
    ∃ p, isRouteB g bl start v p = true ∧ routeW g p = x
  closed_min : ∀ v ∈ st.closedS, ∀ x, st.gS v = some x →
    ∀ p, isRouteB g bl start v p = true → x ≤ routeW g p
  cf_start : st.cameFrom start = none
  cf_def : ∀ v x, st.gS v = some x → v ≠ start → st.cameFrom v ≠ none
  cf_prop : ∀ v u, st.cameFrom v = some u →
    effAdjB g bl u v = true ∧ u ∈ st.closedS ∧
    ∃ gu gv, st.gS u = some gu ∧ st.gS v = some gv ∧ gv = gu + g.dist u v
  cf_order : ∀ v u, st.cameFrom v = some u → v ∈ st.closedS →
    st.closedS.indexOf u < st.closedS.indexOf v

/-- The stable invariant: additionally every neighbour of a closed vertex
has been relaxed. -/
structure AInv (g : NavGraph) (bl : List (ℕ × ℕ)) (start endv : ℕ)
    (st : AStarState) extends SInv g bl start endv st : Prop where
  relaxed : ∀ u ∈ st.closedS, ∀ gu, st.gS u = some gu →
    ∀ v, effAdjB g bl u v = true →
      v ∈ st.closedS ∨
        (v ∈ st.openS ∧ ∃ gv, st.gS v = some gv ∧ gv ≤ gu + g.dist u v)

/-- The mid-relaxation invariant: the vertex being expanded is already
closed, old closed vertices are fully relaxed, and the processed
neighbours (`done`) of the current vertex are relaxed. -/
structure RInv (g : NavGraph) (bl : List (ℕ × ℕ)) (start endv : ℕ)
    (current : ℕ) (gc : ℚ) (done : List ℕ) (st : AStarState)
    extends SInv g bl start endv st : Prop where
  current_closed : current ∈ st.closedS
  g_current : st.gS current = some gc
  relaxed_old : ∀ u ∈ st.closedS, u ≠ current → ∀ gu, st.gS u = some gu →
    ∀ v, effAdjB g bl u v = true →
      v ∈ st.closedS ∨
        (v ∈ st.openS ∧ ∃ gv, st.gS v = some gv ∧ gv ≤ gu + g.dist u v)
  relaxed_done : ∀ v ∈ done, effAdjB g bl current v = true →
    v ∈ st.closedS ∨
      (v ∈ st.openS ∧ ∃ gv, st.gS v = some gv ∧ gv ≤ gc + g.dist current v)

/-- Decomposition of a route check. -/
theorem isRouteB_parts {g : NavGraph} {bl : List (ℕ × ℕ)} {a b : ℕ}
    {p : List ℕ} (h : isRouteB g bl a b p = true) :
    p.head? = some a ∧ p.getLast? = some b ∧ chainB g bl p = true := by
  unfold isRouteB at h
  have h1 := Bool.and_eq_true .. |>.mp h
  have h2 := Bool.and_eq_true .. |>.mp h1.1
  exact ⟨of_decide_eq_true h2.1, of_decide_eq_true h2.2, h1.2⟩

theorem isRouteB_intro {g : NavGraph} {bl : List (ℕ × ℕ)} {a b : ℕ}
    {p : List ℕ} (h1 : p.head? = some a) (h2 : p.getLast? = some b)
    (h3 : chainB g bl p = true) : isRouteB g bl a b p = true := by
  unfold isRouteB
  rw [h3, decide_eq_true h1, decide_eq_true h2]
  rfl

/-- Extending a sound route by one relaxed lane. -/
theorem sound_snoc {g : NavGraph} {bl : List (ℕ × ℕ)} {start u v : ℕ}
    {p : List ℕ} (hp : isRouteB g bl start u p = true)
    (hadj : effAdjB g bl u v = true) :
    isRouteB g bl start v (p ++ [v]) = true ∧
      routeW g (p ++ [v]) = routeW g p + g.dist u v := by
  obtain ⟨hh, hl, hc⟩ := isRouteB_parts hp
  have hne : p ≠ [] := by
    intro h
    rw [h] at hh
    simp at hh
  refine ⟨isRouteB_intro ?_ ?_ ?_, routeW_snoc g p u hl v⟩
  · rw [head?_append_left p [v] hne]
    exact hh
  · rw [List.getLast?_append_cons]
    rfl
  · exact chainB_snoc g bl p u hl hc v hadj

/-- The frontier lemma, walking along a route that starts inside the
closed set: the first escape into the open set carries a g-score bounded
by the weight of the route prefix. -/
theorem astarFrontierAux {g : NavGraph} {bl : List (ℕ × ℕ)} {start endv : ℕ}
    {st : AStarState} (hinv : SInv g bl start endv st)
    (hrel : ∀ u ∈ st.closedS, ∀ gu, st.gS u = some gu →
      ∀ v, effAdjB g bl u v = true →
        v ∈ st.closedS ∨
          (v ∈ st.openS ∧ ∃ gv, st.gS v = some gv ∧ gv ≤ gu + g.dist u v)) :
    ∀ (p : List ℕ) (v : ℕ) (gv : ℚ), chainB g bl p = true →
      p.head? = some v → v ∈ st.closedS → st.gS v = some gv →
      ∀ (z : ℕ), p.getLast? = some z → z ∉ st.closedS →
      ∃ y gy pre suf, y ∈ st.openS ∧ st.gS y = some gy ∧
        p = pre ++ y :: suf ∧ gy ≤ gv + routeW g (pre ++ [y])
  | [], v, gv, _, hhd, _, _, z, _, _ => by simp at hhd
  | [x], v, gv, _, hhd, hvc, _, z, hlast, hzc => by
    have h1 : x = v := by simpa using hhd
    have h2 : x = z := by simpa using hlast
    subst h1
    subst h2
    exact absurd hvc hzc
  | x :: x2 :: rest, v, gv, hch, hhd, hvc, hgv, z, hlast, hzc => by
    have h1 : x = v := by simpa using hhd
    subst h1
    rw [chainB_cons2] at hch
    have h2 := Bool.and_eq_true .. |>.mp hch
    rcases hrel x hvc gv hgv x2 h2.1 with hx2c | ⟨hx2o, gv2, hgv2, hb2⟩
    · obtain ⟨gv2, hgv2⟩ := hinv.g_closed x2 hx2c
      have hstep : gv2 ≤ gv + g.dist x x2 := by
        obtain ⟨px, hpx, hwx⟩ := hinv.sound x gv hgv
        obtain ⟨hroute2, hw2⟩ := sound_snoc hpx h2.1
        have := hinv.closed_min x2 hx2c gv2 hgv2 (px ++ [x2]) hroute2
        rw [hw2, hwx] at this
        exact this
      have hlast2 : (x2 :: rest).getLast? = some z := by
        rw [← hlast]
        exact (List.getLast?_cons_cons ..).symm
      obtain ⟨y, gy, pre2, suf, hy, hgy, heq, hb⟩ :=
        astarFrontierAux hinv hrel (x2 :: rest) x2 gv2 h2.2 rfl hx2c hgv2 z
          hlast2 hzc
      refine ⟨y, gy, x :: pre2, suf, hy, hgy, ?_, ?_⟩
      · rw [List.cons_append, ← heq]
      · have hhd2 : (pre2 ++ [y]).head? = some x2 := by
          rw [← head?_append_cons pre2 y suf, ← heq]
          rfl
        have hne2 : pre2 ++ [y] ≠ [] := by
          intro hcontra
          rw [hcontra] at hhd2
          simp at hhd2
        have hwcons : routeW g (x :: (pre2 ++ [y]))
            = g.dist x x2 + routeW g (pre2 ++ [y]) := by
          rw [routeW_cons_headD g x (pre2 ++ [y]) hne2, headD_of_head? hhd2]
        rw [List.cons_append, hwcons]
        linarith
    · refine ⟨x2, gv2, [x], rest, hx2o, hgv2, rfl, ?_⟩
      have : routeW g [x, x2] = g.dist x x2 := by
        rw [routeW_cons2]
        simp [routeW]
      rw [List.cons_append, List.nil_append, this]
      linarith

/-- The frontier lemma from the start: any route to a non-closed site
passes through an open site whose g-score bounds the prefix weight. -/
theorem astarFrontier {g : NavGraph} {bl : List (ℕ × ℕ)} {start endv : ℕ}
    {st : AStarState} (hinv : AInv g bl start endv st)
    (p : List ℕ) (z : ℕ) (hp : isRouteB g bl start z p = true)
    (hz : z ∉ st.closedS) :
    ∃ y gy pre suf, y ∈ st.openS ∧ st.gS y = some gy ∧
      p = pre ++ y :: suf ∧ gy ≤ routeW g (pre ++ [y]) := by
  obtain ⟨hh, hl, hc⟩ := isRouteB_parts hp
  by_cases hsc : start ∈ st.closedS
  · obtain ⟨y, gy, pre, suf, hy, hgy, heq, hb⟩ :=
      astarFrontierAux hinv.toSInv hinv.relaxed p start 0 hc hh hsc
        hinv.g_start z hl hz
    exact ⟨y, gy, pre, suf, hy, hgy, heq, by linarith⟩
  · have hso : start ∈ st.openS := hinv.start_mem.resolve_right hsc
    obtain ⟨tail, htail⟩ : ∃ tail, p = start :: tail := by
      cases p with
      | nil => simp at hh
      | cons a t =>
        have : a = start := by simpa using hh
        exact ⟨t, by rw [this]⟩
    refine ⟨start, 0, [], tail, hso, hinv.g_start, by rw [htail]; rfl, ?_⟩
    have : routeW g ([] ++ [start]) = 0 := rfl
    rw [this]

/-- Optimality at pop time: the popped minimal-f vertex's g-score is a
lower bound for the weight of every route to it. -/
theorem pop_opt {g : NavGraph} (hwf : g.WF) {bl : List (ℕ × ℕ)}
    {start endv : ℕ} (hend : endv ∈ g.verts) {st : AStarState}
    (hinv : AInv g bl start endv st) (hne : st.openS ≠ [])
    (gc : ℚ) (hgc : st.gS (pickMin st.fS st.openS) = some gc) :
    ∀ p, isRouteB g bl start (pickMin st.fS st.openS) p = true →
      gc ≤ routeW g p := by
  intro p hp
  set c := pickMin st.fS st.openS with hc
  have hcmem : c ∈ st.openS := pickMin_mem _ _ hne
  have hcnc : c ∉ st.closedS := hinv.disj c hcmem
  obtain ⟨y, gy, pre, suf, hy, hgy, heq, hb⟩ := astarFrontier hinv p c hp hcnc
  have hfy := hinv.f_eq y gy hgy
  have hfc := hinv.f_eq c gc hgc
  have hmin := pickMin_min st.fS st.openS y hy
  rw [← hc] at hmin
  rw [hfy, hfc] at hmin
  have hfle : gc + g.dist c endv ≤ gy + g.dist y endv := by
    simp only [oLT, decide_eq_false_iff_not, not_lt] at hmin
    exact hmin
  obtain ⟨hh, hl, hch⟩ := isRouteB_parts hp
  have hl2 : (y :: suf).getLast? = some c := by
    rw [heq] at hl
    rw [← hl, List.getLast?_append_cons]
  have hch2 := (chainB_split g bl pre y suf (by rw [← heq]; exact hch)).2
  cases suf with
  | nil =>
    have hyc : y = c := by simpa using hl2
    rw [hyc] at hfle hb
    have hweq : routeW g p = routeW g (pre ++ [c]) := by
      rw [heq, hyc]
    rw [hweq]
    linarith
  | cons s ss =>
    have hmem : ∀ x ∈ y :: s :: ss, x ∈ g.verts :=
      chainB_mem2 hwf hch2 (by simp)
    have htel := dist_tele hwf hend (y :: s :: ss) y c hch2 rfl hl2 hmem
    have hw : routeW g p = routeW g (pre ++ [y]) + routeW g (y :: s :: ss) := by
      rw [heq, routeW_append_cons]
    rw [hw]
    linarith

/-! ### Path reconstruction -/

/-- Position of a vertex in the closing order (non-closed vertices sort
last); `came_from` links strictly decrease it. -/
def cfMeasure (st : AStarState) (v : ℕ) : ℕ :=
  if v ∈ st.closedS then st.closedS.indexOf v else st.closedS.length

theorem reconstruct_spec {g : NavGraph} {bl : List (ℕ × ℕ)} {start endv : ℕ}
    {st : AStarState} (hinv : SInv g bl start endv st) :
    ∀ (fuel : ℕ) (v : ℕ) (gv : ℚ), st.gS v = some gv →
      cfMeasure st v < fuel →
      ∃ p, reconstruct st.cameFrom start fuel v = some p ∧
        isRouteB g bl start v p = true ∧ routeW g p = gv := by
  intro fuel
  induction fuel with
  | zero =>
    intro v gv _ h
    exact absurd h (Nat.not_lt_zero _)
  | succ n ih =>
    intro v gv hgv hm
    cases hcf : st.cameFrom v with
    | none =>
      have hv : v = start := by
        by_contra hne
        exact (hinv.cf_def v gv hgv hne) hcf
      subst hv
      have hgv0 : gv = 0 := by
        rw [hinv.g_start] at hgv
        exact (Option.some_inj.mp hgv).symm
      refine ⟨[v], ?_, ?_, by rw [hgv0]; rfl⟩
      · simp [reconstruct, hcf]
      · exact isRouteB_intro rfl rfl rfl
    | some u =>
      obtain ⟨hadj, huc, gu, gv2, hgu, hgv2, heq⟩ := hinv.cf_prop v u hcf
      have hgveq : gv2 = gv := by
        rw [hgv] at hgv2
        exact (Option.some_inj.mp hgv2).symm
      have hmu : cfMeasure st u < cfMeasure st v := by
        unfold cfMeasure
        rw [if_pos huc]
        by_cases hvc : v ∈ st.closedS
        · rw [if_pos hvc]
          exact hinv.cf_order v u hcf hvc
        · rw [if_neg hvc]
          exact List.indexOf_lt_length.mpr huc
      obtain ⟨p, hp, hroute, hw⟩ := ih u gu hgu (by omega)
      refine ⟨p ++ [v], ?_, (sound_snoc hroute hadj).1, ?_⟩
      · simp [reconstruct, hcf, hp]
      · rw [(sound_snoc hroute hadj).2, hw]
        linarith [heq, hgveq]

/-! ### Closing the popped vertex -/

theorem close_step {g : NavGraph} (hwf : g.WF) {bl : List (ℕ × ℕ)}
    {start endv : ℕ} (hend : endv ∈ g.verts) {st : AStarState}
    (hinv : AInv g bl start endv st) (hne : st.openS ≠ [])
    (hcur : pickMin st.fS st.openS ≠ endv)
    (gc : ℚ) (hgc : st.gS (pickMin st.fS st.openS) = some gc) :
    RInv g bl start endv (pickMin st.fS st.openS) gc []
      { st with openS := st.openS.erase (pickMin st.fS st.openS),
                closedS := st.closedS ++ [pickMin st.fS st.openS] } := by
  set c := pickMin st.fS st.openS with hc
  have hcmem : c ∈ st.openS := pickMin_mem _ _ hne
  have hcnc : c ∉ st.closedS := hinv.disj c hcmem
  have hmem_erase : ∀ v, v ∈ st.openS.erase c ↔ v ≠ c ∧ v ∈ st.openS :=
    fun v => hinv.open_nodup.mem_erase_iff
  have hmem_app : ∀ v, v ∈ st.closedS ++ [c] ↔ v ∈ st.closedS ∨ v = c := by
    intro v
    simp [List.mem_append]
  refine
    { open_sub := ?_, closed_sub := ?_, open_nodup := ?_, closed_nodup := ?_,
      disj := ?_, end_not_closed := ?_, start_mem := ?_, g_start := ?_,
      g_open := ?_, g_closed := ?_, g_dom := ?_, g_nonneg := ?_, f_eq := ?_,
      sound := ?_, closed_min := ?_, cf_start := ?_, cf_def := ?_,
      cf_prop := ?_, cf_order := ?_, current_closed := ?_, g_current := ?_,
      relaxed_old := ?_, relaxed_done := ?_ }
  · intro v hv
    exact hinv.open_sub v (List.erase_subset _ _ hv)
  · intro v hv
    rcases (hmem_app v).mp hv with h | rfl
    · exact hinv.closed_sub v h
    · exact hinv.open_sub _ hcmem
  · exact hinv.open_nodup.erase _
  · rw [List.nodup_append]
    refine ⟨hinv.closed_nodup, by simp, ?_⟩
    intro a ha hac
    have : a = c := by simpa using hac
    subst this
    exact hcnc ha
  · intro v hv
    obtain ⟨hvc, hvo⟩ := (hmem_erase v).mp hv
    intro hcl
    rcases (hmem_app v).mp hcl with h | h
    · exact hinv.disj v hvo h
    · exact hvc h
  · intro hcl
    rcases (hmem_app endv).mp hcl with h | h
    · exact hinv.end_not_closed h
    · exact hcur h.symm
  · rcases hinv.start_mem with h | h
    · by_cases hsc : start = c
      · right
        exact (hmem_app start).mpr (Or.inr hsc)
      · left
        exact (hmem_erase start).mpr ⟨hsc, h⟩
    · right
      exact (hmem_app start).mpr (Or.inl h)
  · exact hinv.g_start
  · intro v hv
    exact hinv.g_open v (List.erase_subset _ _ hv)
  · intro v hv
    rcases (hmem_app v).mp hv with h | rfl
    · exact hinv.g_closed v h
    · exact ⟨gc, hgc⟩
  · intro v x hx
    rcases hinv.g_dom v x hx with h | h
    · by_cases hvc : v = c
      · right
        exact (hmem_app v).mpr (Or.inr hvc)
      · left
        exact (hmem_erase v).mpr ⟨hvc, h⟩
    · right
      exact (hmem_app v).mpr (Or.inl h)
  · exact hinv.g_nonneg
  · exact hinv.f_eq
  · exact hinv.sound
  · intro v hv x hx p hp
    rcases (hmem_app v).mp hv with h | rfl
    · exact hinv.closed_min v h x hx p hp
    · have hxgc : x = gc := by
        rw [hgc] at hx
        exact (Option.some_inj.mp hx).symm
      rw [hxgc]
      exact pop_opt hwf hend hinv hne gc hgc p hp
  · exact hinv.cf_start
  · exact hinv.cf_def
  · intro v u hcf
    obtain ⟨hadj, huc, rest⟩ := hinv.cf_prop v u hcf
    exact ⟨hadj, (hmem_app u).mpr (Or.inl huc), rest⟩
  · intro v u hcf hvc
    obtain ⟨hadj, huc, rest⟩ := hinv.cf_prop v u hcf
    rcases (hmem_app v).mp hvc with hvold | rfl
    · rw [List.indexOf_append_of_mem huc, List.indexOf_append_of_mem hvold]
      exact hinv.cf_order v u hcf hvold
    · rw [List.indexOf_append_of_mem huc, List.indexOf_append_of_not_mem hcnc]
      have h1 : List.indexOf u st.closedS < st.closedS.length :=
        List.indexOf_lt_length.mpr huc
      have h2 : List.indexOf c [c] = 0 := by simp
      omega
  · exact (hmem_app c).mpr (Or.inr rfl)
  · exact hgc
  · intro u hu hunec gu hgu v hv
    have huold : u ∈ st.closedS := by
      rcases (hmem_app u).mp hu with h | h
      · exact h
      · exact absurd h hunec
    rcases hinv.relaxed u huold gu hgu v hv with h | ⟨hvo, gv, hgv, hb⟩
    · left
      exact (hmem_app v).mpr (Or.inl h)
    · by_cases hvc : v = c
      · left
        exact (hmem_app v).mpr (Or.inr hvc)
      · right
        exact ⟨(hmem_erase v).mpr ⟨hvc, hvo⟩, gv, hgv, hb⟩
  · intro v hv
    simp at hv

/-! ### Relaxing the neighbours -/

theorem RInv.push_done {g : NavGraph} {bl : List (ℕ × ℕ)} {start endv : ℕ}
    {current : ℕ} {gc : ℚ} {done : List ℕ} {st : AStarState}
    (hinv : RInv g bl start endv current gc done st) (nb : ℕ)
    (hnb : effAdjB g bl current nb = true →
      nb ∈ st.closedS ∨
        (nb ∈ st.openS ∧ ∃ gv, st.gS nb = some gv ∧ gv ≤ gc + g.dist current nb)) :
    RInv g bl start endv current gc (done ++ [nb]) st :=
  { hinv with
    relaxed_done := by
      intro v hv hadj
      rcases List.mem_append.mp hv with h | h
      · exact hinv.relaxed_done v h hadj
      · have hvnb : v = nb := by simpa using h
        subst hvnb
        exact hnb hadj }

theorem relaxNb_spec {g : NavGraph} (hwf : g.WF) {bl : List (ℕ × ℕ)}
    {start endv : ℕ} (hend : endv ∈ g.verts)
    {current : ℕ} {gc : ℚ} {done : List ℕ} {st : AStarState}
    (hinv : RInv g bl start endv current gc done st)
    {nb : ℕ} (hnbv : nb ∈ g.verts) (hnba : g.adjB current nb = true) :
    ∃ st2, relaxNb g bl endv current gc st nb = .ok st2 ∧
      RInv g bl start endv current gc (done ++ [nb]) st2 ∧
      st2.closedS = st.closedS := by
  have hcv : current ∈ g.verts := hinv.closed_sub current hinv.current_closed
  unfold relaxNb
  by_cases hcl : nb ∈ st.closedS
  · rw [if_pos hcl]
    exact ⟨st, rfl, hinv.push_done nb (fun _ => Or.inl hcl), rfl⟩
  · rw [if_neg hcl]
    by_cases hbl : blockedB bl current nb = true
    · rw [if_pos hbl]
      refine ⟨st, rfl, hinv.push_done nb (fun hadj => ?_), rfl⟩
      have h2 := (effAdjB_parts hadj).2
      rw [hbl] at h2
      exact Bool.noConfusion h2
    · have hblf : blockedB bl current nb = false := by
        cases h : blockedB bl current nb
        · rfl
        · exact absurd h hbl
      rw [if_neg hbl]
      have hw : g.get_edge_weight current nb = some (g.dist current nb) := by
        unfold NavGraph.get_edge_weight
        rw [if_pos hnba]
      have hadj : effAdjB g bl current nb = true := by
        unfold effAdjB
        rw [hnba, hblf]
        rfl
      have he : g.euclid nb endv = some (g.dist nb endv) := by
        unfold NavGraph.euclid
        rw [if_pos ⟨hnbv, hend⟩]
      have htentpos : 0 ≤ gc + g.dist current nb := by
        have h1 := hinv.g_nonneg current gc hinv.g_current
        have h2 := hwf.dist_nonneg current hcv nb hnbv
        linarith
      have hsound_nb : ∃ p, isRouteB g bl start nb p = true ∧
          routeW g p = gc + g.dist current nb := by
        obtain ⟨pc, hpc, hwc⟩ := hinv.sound current gc hinv.g_current
        obtain ⟨h1, h2⟩ := sound_snoc hpc hadj
        exact ⟨pc ++ [nb], h1, by rw [h2, hwc]⟩
      have hcurnb : current ≠ nb := fun h => hcl (h ▸ hinv.current_closed)
      simp only [hw]
      by_cases hop : nb ∈ st.openS
      · rw [if_pos hop]
        by_cases hskip : tentSkip (st.gS nb) (gc + g.dist current nb) = true
        · rw [if_pos hskip]
          refine ⟨st, rfl, hinv.push_done nb (fun _ => ?_), rfl⟩
          unfold tentSkip at hskip
          cases hgnb : st.gS nb with
          | none =>
            rw [hgnb] at hskip
            simp at hskip
          | some gv0 =>
            rw [hgnb] at hskip
            simp only [decide_eq_true_eq] at hskip
            exact Or.inr ⟨hop, gv0, rfl, hskip⟩
        · rw [if_neg hskip]
          simp only [he]
          obtain ⟨gv0, hgv0⟩ := hinv.g_open nb hop
          have hlt : gc + g.dist current nb < gv0 := by
            by_contra hle
            push_neg at hle
            apply hskip
            unfold tentSkip
            rw [hgv0]
            simpa using hle
          have hnbstart : nb ≠ start := by
            intro h
            rw [h, hinv.g_start] at hgv0
            have : gv0 = 0 := (Option.some_inj.mp hgv0).symm
            rw [this] at hlt
            linarith
          refine ⟨_, rfl, ?_, rfl⟩
          refine
            { open_sub := hinv.open_sub, closed_sub := hinv.closed_sub,
              open_nodup := hinv.open_nodup, closed_nodup := hinv.closed_nodup,
              disj := hinv.disj, end_not_closed := hinv.end_not_closed,
              start_mem := hinv.start_mem, g_start := ?_, g_open := ?_,
              g_closed := ?_, g_dom := ?_, g_nonneg := ?_, f_eq := ?_,
              sound := ?_, closed_min := ?_, cf_start := ?_, cf_def := ?_,
              cf_prop := ?_, cf_order := ?_, current_closed := hinv.current_closed,
              g_current := ?_, relaxed_old := ?_, relaxed_done := ?_ }
          · simp only
            rw [if_neg (Ne.symm hnbstart)]
            exact hinv.g_start
          · intro v hv
            simp only
            by_cases hvnb : v = nb
            · rw [if_pos hvnb]
              exact ⟨_, rfl⟩
            · rw [if_neg hvnb]
              exact hinv.g_open v hv
          · intro v hv
            simp only
            rw [if_neg (fun h : v = nb => hcl (h ▸ hv))]
            exact hinv.g_closed v hv
          · intro v x hx
            simp only at hx
            by_cases hvnb : v = nb
            · subst hvnb
              exact Or.inl hop
            · rw [if_neg hvnb] at hx
              exact hinv.g_dom v x hx
          · intro v x hx
            simp only at hx
            by_cases hvnb : v = nb
            · rw [if_pos hvnb] at hx
              rw [← Option.some_inj.mp hx]
              exact htentpos
            · rw [if_neg hvnb] at hx
              exact hinv.g_nonneg v x hx
          · intro v x hx
            simp only at hx ⊢
            by_cases hvnb : v = nb
            · subst hvnb
              rw [if_pos rfl] at hx ⊢
              rw [← Option.some_inj.mp hx]
            · rw [if_neg hvnb] at hx ⊢
              exact hinv.f_eq v x hx
          · intro v x hx
            simp only at hx
            by_cases hvnb : v = nb
            · subst hvnb
              rw [if_pos rfl] at hx
              rw [← Option.some_inj.mp hx]
              exact hsound_nb
            · rw [if_neg hvnb] at hx
              exact hinv.sound v x hx
          · intro v hv x hx p hp
            simp only at hx
            rw [if_neg (fun h : v = nb => hcl (h ▸ hv))] at hx
            exact hinv.closed_min v hv x hx p hp
          · simp only
            rw [if_neg (Ne.symm hnbstart)]
            exact hinv.cf_start
          · intro v x hx hvs
            simp only at hx ⊢
            by_cases hvnb : v = nb
            · rw [if_pos hvnb]
              simp
            · rw [if_neg hvnb] at hx ⊢
              exact hinv.cf_def v x hx hvs
          · intro v u hcf
            simp only at hcf ⊢
            by_cases hvnb : v = nb
            · rw [if_pos hvnb] at hcf
              have hu : u = current := (Option.some_inj.mp hcf).symm
              subst hu
              subst hvnb
              refine ⟨hadj, hinv.current_closed, gc, gc + g.dist u v, ?_, ?_, rfl⟩
              · rw [if_neg (fun h : u = v => hcurnb h)]
                exact hinv.g_current
              · rw [if_pos rfl]
            · rw [if_neg hvnb] at hcf
              obtain ⟨ha, hu, gu, gv, hgu, hgv, heq⟩ := hinv.cf_prop v u hcf
              have hunb : u ≠ nb := fun h => hcl (h ▸ hu)
              exact ⟨ha, hu, gu, gv, by rw [if_neg hunb]; exact hgu,
                by rw [if_neg hvnb]; exact hgv, heq⟩
          · intro v u hcf hvc
            simp only at hcf
            have hvnb : v ≠ nb := fun h => hcl (h ▸ hvc)
            rw [if_neg hvnb] at hcf
            exact hinv.cf_order v u hcf hvc
          · simp only
            rw [if_neg hcurnb]
            exact hinv.g_current
          · intro u hu hune gu hgu v hv
            simp only at hgu
            have hunb : u ≠ nb := fun h => hcl (h ▸ hu)
            rw [if_neg hunb] at hgu
            rcases hinv.relaxed_old u hu hune gu hgu v hv with h | ⟨hvo, gv, hgv, hb⟩
            · exact Or.inl h
            · by_cases hvnb : v = nb
              · subst hvnb
                refine Or.inr ⟨hvo, gc + g.dist current v, by simp, ?_⟩
                have : gv = gv0 := by
                  rw [hgv0] at hgv
                  exact (Option.some_inj.mp hgv).symm
                rw [this] at hb
                linarith
              · exact Or.inr ⟨hvo, gv, by simp only; rw [if_neg hvnb]; exact hgv, hb⟩
          · intro v hv hadj2
            by_cases hvnb : v = nb
            · subst hvnb
              refine Or.inr ⟨hop, gc + g.dist current v, by simp, le_refl _⟩
            · rcases List.mem_append.mp hv with h | h
              · rcases hinv.relaxed_done v h hadj2 with hc2 | ⟨hvo, gv, hgv, hb⟩
                · exact Or.inl hc2
                · exact Or.inr ⟨hvo, gv, by simp only; rw [if_neg hvnb]; exact hgv, hb⟩
              · exact absurd (by simpa using h) hvnb
      · rw [if_neg hop]
        simp only [he]
        have hnbstart : nb ≠ start := by
          intro h
          rcases hinv.start_mem with hs | hs
          · exact hop (h ▸ hs)
          · exact hcl (h ▸ hs)
        refine ⟨_, rfl, ?_, rfl⟩
        refine
          { open_sub := ?_, closed_sub := hinv.closed_sub,
            open_nodup := ?_, closed_nodup := hinv.closed_nodup,
            disj := ?_, end_not_closed := hinv.end_not_closed,
            start_mem := ?_, g_start := ?_, g_open := ?_,
            g_closed := ?_, g_dom := ?_, g_nonneg := ?_, f_eq := ?_,
            sound := ?_, closed_min := ?_, cf_start := ?_, cf_def := ?_,
            cf_prop := ?_, cf_order := ?_, current_closed := hinv.current_closed,
            g_current := ?_, relaxed_old := ?_, relaxed_done := ?_ }
        · intro v hv
          rcases List.mem_append.mp hv with h | h
          · exact hinv.open_sub v h
          · have : v = nb := by simpa using h
            subst this
            exact hnbv
        · rw [List.nodup_append]
          refine ⟨hinv.open_nodup, by simp, ?_⟩
          intro a ha hab
          have : a = nb := by simpa using hab
          subst this
          exact hop ha
        · intro v hv
          rcases List.mem_append.mp hv with h | h
          · exact hinv.disj v h
          · have : v = nb := by simpa using h
            subst this
            exact hcl
        · rcases hinv.start_mem with h | h
          · exact Or.inl (List.mem_append.mpr (Or.inl h))
          · exact Or.inr h
        · simp only
          rw [if_neg (Ne.symm hnbstart)]
          exact hinv.g_start
        · intro v hv
          simp only
          by_cases hvnb : v = nb
          · rw [if_pos hvnb]
            exact ⟨_, rfl⟩
          · rw [if_neg hvnb]
            rcases List.mem_append.mp hv with h | h
            · exact hinv.g_open v h
            · exact absurd (by simpa using h) hvnb
        · intro v hv
          simp only
          rw [if_neg (fun h : v = nb => hcl (h ▸ hv))]
          exact hinv.g_closed v hv
        · intro v x hx
          simp only at hx
          by_cases hvnb : v = nb
          · subst hvnb
            exact Or.inl (List.mem_append.mpr (Or.inr (by simp)))
          · rw [if_neg hvnb] at hx
            rcases hinv.g_dom v x hx with h | h
            · exact Or.inl (List.mem_append.mpr (Or.inl h))
            · exact Or.inr h
        · intro v x hx
          simp only at hx
          by_cases hvnb : v = nb
          · rw [if_pos hvnb] at hx
            rw [← Option.some_inj.mp hx]
            exact htentpos
          · rw [if_neg hvnb] at hx
            exact hinv.g_nonneg v x hx
        · intro v x hx
          simp only at hx ⊢
          by_cases hvnb : v = nb
          · subst hvnb
            rw [if_pos rfl] at hx ⊢
            rw [← Option.some_inj.mp hx]
          · rw [if_neg hvnb] at hx ⊢
            exact hinv.f_eq v x hx
        · intro v x hx
          simp only at hx
          by_cases hvnb : v = nb
          · subst hvnb
            rw [if_pos rfl] at hx
            rw [← Option.some_inj.mp hx]
            exact hsound_nb
          · rw [if_neg hvnb] at hx
            exact hinv.sound v x hx
        · intro v hv x hx p hp
          simp only at hx
          rw [if_neg (fun h : v = nb => hcl (h ▸ hv))] at hx
          exact hinv.closed_min v hv x hx p hp
        · simp only
          rw [if_neg (Ne.symm hnbstart)]
          exact hinv.cf_start
        · intro v x hx hvs
          simp only at hx ⊢
          by_cases hvnb : v = nb
          · rw [if_pos hvnb]
            simp
          · rw [if_neg hvnb] at hx ⊢
            exact hinv.cf_def v x hx hvs
        · intro v u hcf
          simp only at hcf ⊢
          by_cases hvnb : v = nb
          · rw [if_pos hvnb] at hcf
            have hu : u = current := (Option.some_inj.mp hcf).symm
            subst hu
            subst hvnb
            refine ⟨hadj, hinv.current_closed, gc, gc + g.dist u v, ?_, ?_, rfl⟩
            · rw [if_neg (fun h : u = v => hcurnb h)]
              exact hinv.g_current
            · rw [if_pos rfl]
          · rw [if_neg hvnb] at hcf
            obtain ⟨ha, hu, gu, gv, hgu, hgv, heq⟩ := hinv.cf_prop v u hcf
            have hunb : u ≠ nb := fun h => hcl (h ▸ hu)
            exact ⟨ha, hu, gu, gv, by rw [if_neg hunb]; exact hgu,
              by rw [if_neg hvnb]; exact hgv, heq⟩
        · intro v u hcf hvc
          simp only at hcf
          have hvnb : v ≠ nb := fun h => hcl (h ▸ hvc)
          rw [if_neg hvnb] at hcf
          exact hinv.cf_order v u hcf hvc
        · simp only
          rw [if_neg hcurnb]
          exact hinv.g_current
        · intro u hu hune gu hgu v hv
          simp only at hgu
          have hunb : u ≠ nb := fun h => hcl (h ▸ hu)
          rw [if_neg hunb] at hgu
          by_cases hvnb : v = nb
          · exfalso
            rcases hinv.relaxed_old u hu hune gu hgu v hv with h | ⟨hvo, _⟩
            · exact hcl (hvnb ▸ h)
            · exact hop (hvnb ▸ hvo)
          · rcases hinv.relaxed_old u hu hune gu hgu v hv with h | ⟨hvo, gv, hgv, hb⟩
            · exact Or.inl h
            · exact Or.inr ⟨List.mem_append.mpr (Or.inl hvo), gv,
                by simp only; rw [if_neg hvnb]; exact hgv, hb⟩
        · intro v hv hadj2
          by_cases hvnb : v = nb
          · subst hvnb
            refine Or.inr ⟨List.mem_append.mpr (Or.inr (by simp)),
              gc + g.dist current v, by simp, le_refl _⟩
          · rcases List.mem_append.mp hv with h | h
            · rcases hinv.relaxed_done v h hadj2 with hc2 | ⟨hvo, gv, hgv, hb⟩
              · exact Or.inl hc2
              · exact Or.inr ⟨List.mem_append.mpr (Or.inl hvo), gv,
                  by simp only; rw [if_neg hvnb]; exact hgv, hb⟩
            · exact absurd (by simpa using h) hvnb

/-- Relaxing a whole neighbour list preserves the mid-relaxation invariant
and never errors when every neighbour is a genuine adjacent site. -/
theorem relaxList_spec {g : NavGraph} (hwf : g.WF) {bl : List (ℕ × ℕ)}
    {start endv : ℕ} (hend : endv ∈ g.verts) {current : ℕ} {gc : ℚ} :
    ∀ (nbs done : List ℕ) (st : AStarState),
      RInv g bl start endv current gc done st →
      (∀ nb ∈ nbs, nb ∈ g.verts ∧ g.adjB current nb = true) →
      ∃ st2, relaxList g bl endv current gc nbs st = .ok st2 ∧
        RInv g bl start endv current gc (done ++ nbs) st2 ∧
        st2.closedS = st.closedS
  | [], done, st, hinv, _ => ⟨st, rfl, by simpa using hinv, rfl⟩
  | nb :: rest, done, st, hinv, hnbs => by
    obtain ⟨st1, h1, hinv1, hcl1⟩ :=
      relaxNb_spec hwf hend hinv (hnbs nb (by simp)).1 (hnbs nb (by simp)).2
    obtain ⟨st2, h2, hinv2, hcl2⟩ :=
      relaxList_spec hwf hend rest (done ++ [nb]) st1 hinv1
        (fun x hx => hnbs x (by simp [hx]))
    refine ⟨st2, ?_, ?_, by rw [hcl2, hcl1]⟩
    · rw [relaxList, h1]
      exact h2
    · rw [← List.append_cons] at hinv2
      exact hinv2

/-- Once every actual neighbour of the expanded vertex is processed, the
stable invariant is restored. -/
theorem RInv.to_AInv {g : NavGraph} (hwf : g.WF) {bl : List (ℕ × ℕ)}
    {start endv current : ℕ} {gc : ℚ} {st : AStarState}
    (hinv : RInv g bl start endv current gc
      (g.verts.filter (fun u => g.adjB current u)) st) :
    AInv g bl start endv st := by
  refine { toSInv := hinv.toSInv, relaxed := ?_ }
  intro u hu gu hgu v hadj
  by_cases huc : u = current
  · have hgueq : gu = gc := by
      rw [huc, hinv.g_current] at hgu
      exact (Option.some_inj.mp hgu).symm
    have hadj2 : effAdjB g bl current v = true := by
      rw [← huc]
      exact hadj
    have hvmem : v ∈ g.verts.filter (fun u => g.adjB current u) :=
      List.mem_filter.mpr ⟨(effAdjB_mem hwf hadj2).2, (effAdjB_parts hadj2).1⟩
    rcases hinv.relaxed_done v hvmem hadj2 with h | ⟨hvo, gv, hgv, hb⟩
    · exact Or.inl h
    · refine Or.inr ⟨hvo, gv, hgv, ?_⟩
      rw [huc, hgueq]
      exact hb
  · exact hinv.relaxed_old u hu huc gu hgu v hadj

/-- The state built by `get_shortest_path` before entering the loop
satisfies the stable invariant. -/
theorem astar_init {g : NavGraph} {bl : List (ℕ × ℕ)} {start endv : ℕ}
    (hstart : start ∈ g.verts) :
    AInv g bl start endv
      { openS := [start]
        closedS := []
        gS := fun z => if z = start then some 0 else none
        fS := fun z => if z = start then some (g.dist start endv) else none
        cameFrom := fun _ => none } := by
  refine
    { open_sub := ?_, closed_sub := ?_, open_nodup := ?_, closed_nodup := ?_,
      disj := ?_, end_not_closed := ?_, start_mem := ?_, g_start := ?_,
      g_open := ?_, g_closed := ?_, g_dom := ?_, g_nonneg := ?_, f_eq := ?_,
      sound := ?_, closed_min := ?_, cf_start := ?_, cf_def := ?_,
      cf_prop := ?_, cf_order := ?_, relaxed := ?_ }
  · intro v hv
    have hvs : v = start := by simpa using hv
    rw [hvs]
    exact hstart
  · intro v hv
    simp at hv
  · simp
  · simp
  · intro v _ hv
    simp at hv
  · simp
  · left
    simp
  · simp
  · intro v hv
    have hvs : v = start := by simpa using hv
    rw [hvs]
    exact ⟨0, by simp⟩
  · intro v hv
    simp at hv
  · intro v x hx
    simp only at hx
    by_cases hv : v = start
    · left
      simp [hv]
    · rw [if_neg hv] at hx
      exact Option.noConfusion hx
  · intro v x hx
    simp only at hx
    by_cases hv : v = start
    · rw [if_pos hv] at hx
      injection hx with h
      exact le_of_eq h
    · rw [if_neg hv] at hx
      exact Option.noConfusion hx
  · intro v x hx
    simp only at hx ⊢
    by_cases hv : v = start
    · subst hv
      rw [if_pos rfl] at hx ⊢
      injection hx with h
      rw [← h, zero_add]
    · rw [if_neg hv] at hx
      exact Option.noConfusion hx
  · intro v x hx
    simp only at hx
    by_cases hv : v = start
    · subst hv
      rw [if_pos rfl] at hx
      injection hx with h
      refine ⟨[v], isRouteB_intro rfl rfl rfl, ?_⟩
      rw [← h]
      rfl
    · rw [if_neg hv] at hx
      exact Option.noConfusion hx
  · intro v hv
    simp at hv
  · rfl
  · intro v x hx hvs
    simp only at hx
    rw [if_neg hvs] at hx
    exact Option.noConfusion hx
  · intro v u hcf
    exact Option.noConfusion hcf
  · intro v u _ hv
    simp at hv
  · intro u hu
    simp at hu

theorem mem_of_getLast?_eq {l : List ℕ} {a : ℕ} (h : l.getLast? = some a) :
    a ∈ l := by
  obtain ⟨hne, heq⟩ := List.mem_getLast?_eq_getLast (Option.mem_def.mpr h)
  rw [heq]
  exact List.getLast_mem hne

/-- Main loop theorem: with enough fuel the loop never errors, a returned
route is an optimal route from `start` to `endv`, and `None` is returned
only when no route exists at all. -/
theorem astarLoop_spec {g : NavGraph} (hwf : g.WF) {bl : List (ℕ × ℕ)}
    {start endv : ℕ} (hend : endv ∈ g.verts) :
    ∀ (fuel : ℕ) (st : AStarState), AInv g bl start endv st →
      g.verts.length + 1 ≤ fuel + st.closedS.length →
      ∃ r, astarLoop g bl start endv fuel st = .ok r ∧
        (∀ p, r = some p → isRouteB g bl start endv p = true ∧
          ∀ q, isRouteB g bl start endv q = true → routeW g p ≤ routeW g q) ∧
        (r = none → ∀ q, isRouteB g bl start endv q = true → False) := by
  intro fuel
  induction fuel with
  | zero =>
    intro st hinv hfuel
    have h1 : st.closedS.length ≤ g.verts.length :=
      nodup_subset_length hinv.closed_nodup (fun v hv => hinv.closed_sub v hv)
    exact absurd hfuel (by omega)
  | succ fuel ih =>
    intro st hinv hfuel
    rw [astarLoop]
    by_cases hopen : st.openS = []
    · rw [if_pos hopen]
      refine ⟨none, rfl, ?_, ?_⟩
      · intro p hp
        exact Option.noConfusion hp
      · intro _ q hq
        obtain ⟨y, gy, pre, suf, hy, _, _, _⟩ :=
          astarFrontier hinv q endv hq hinv.end_not_closed
        rw [hopen] at hy
        simp at hy
    · rw [if_neg hopen]
      set c := pickMin st.fS st.openS with hc
      have hcmem : c ∈ st.openS := by
        rw [hc]
        exact pickMin_mem _ _ hopen
      have hcv : c ∈ g.verts := hinv.open_sub c hcmem
      obtain ⟨gc, hgc⟩ := hinv.g_open c hcmem
      by_cases hce : c = endv
      · rw [if_pos hce]
        have hm : cfMeasure st c < st.closedS.length + 1 := by
          unfold cfMeasure
          rw [if_neg (hinv.disj c hcmem)]
          omega
        obtain ⟨p, hrec, hroute, hw⟩ :=
          reconstruct_spec hinv.toSInv (st.closedS.length + 1) c gc hgc hm
        simp only [hrec]
        refine ⟨some p, rfl, ?_, ?_⟩
        · intro p2 hp2
          have hp2e : p = p2 := Option.some_inj.mp hp2
          rw [← hp2e]
          constructor
          · rw [← hce]
            exact hroute
          · intro q hq
            have hq2 : isRouteB g bl start c q = true := by
              rw [hce]
              exact hq
            rw [hc] at hq2
            have hopt := pop_opt hwf hend hinv hopen gc
              (by rw [← hc]; exact hgc) q hq2
            rw [hw]
            exact hopt
        · intro hco
          exact Option.noConfusion hco
      · rw [if_neg hce]
        simp only [hgc]
        have hnb : g.get_neighbors c = .ok (g.verts.filter (fun u => g.adjB c u)) := by
          unfold NavGraph.get_neighbors
          rw [if_pos hcv]
        simp only [hnb]
        have hclose := close_step hwf hend hinv hopen
          (by rw [← hc]; exact hce) gc (by rw [← hc]; exact hgc)
        rw [← hc] at hclose
        obtain ⟨st2, hrel, hinv2, hcl2⟩ :=
          relaxList_spec hwf hend (g.verts.filter (fun u => g.adjB c u)) []
            _ hclose (fun nb hnbm => ⟨(List.mem_filter.mp hnbm).1,
              (List.mem_filter.mp hnbm).2⟩)
        rw [List.nil_append] at hinv2
        have hainv2 : AInv g bl start endv st2 := RInv.to_AInv hwf hinv2
        simp only [hrel]
        have hlen : st2.closedS.length = st.closedS.length + 1 := by
          rw [hcl2]
          simp
        exact ih st2 hainv2 (by omega)

/-- C1: for connected sites `get_shortest_path` returns a route of minimal
cumulative lane weight (in particular minimal among simple paths), and
`get_shortest_path(A, A)` is always `[A]`. -/
theorem C1_shortest_path_optimal (g : NavGraph) (hwf : g.WF) (A B : ℕ)
    (hconn : ∃ q, isRouteB g [] A B q = true) :
    (∃ p, g.get_shortest_path A B [] = .ok (some p) ∧
      isRouteB g [] A B p = true ∧
      ∀ q, isRouteB g [] A B q = true → routeW g p ≤ routeW g q) ∧
    (∀ s, g.get_shortest_path s s [] = .ok (some [s])) := by
  have htriv : ∀ s, g.get_shortest_path s s [] = .ok (some [s]) := by
    intro s
    unfold NavGraph.get_shortest_path
    rw [if_pos rfl]
  refine ⟨?_, htriv⟩
  by_cases hab : A = B
  · subst hab
    refine ⟨[A], htriv A, isRouteB_intro rfl rfl rfl, ?_⟩
    intro q hq
    obtain ⟨hh, hl, hch⟩ := isRouteB_parts hq
    show (0:ℚ) ≤ routeW g q
    cases q with
    | nil => simp at hh
    | cons x xs =>
      cases xs with
      | nil => exact le_of_eq rfl
      | cons y ys =>
        exact routeW_nonneg hwf hch (chainB_mem2 hwf hch (by simp))
  · obtain ⟨q0, hq0⟩ := hconn
    obtain ⟨hh0, hl0, hch0⟩ := isRouteB_parts hq0
    obtain ⟨x, y, t, hq0e⟩ : ∃ x y t, q0 = x :: y :: t := by
      cases q0 with
      | nil => simp at hh0
      | cons x xs =>
        cases xs with
        | nil =>
          have h1 : x = A := by simpa using hh0
          have h2 : x = B := by simpa using hl0
          exact absurd (h1.symm.trans h2) hab
        | cons y ys => exact ⟨x, y, ys, rfl⟩
    subst hq0e
    have hxA : A = x := (show x = A by simpa using hh0).symm
    subst hxA
    have hmem := chainB_mem2 hwf hch0 (by simp)
    have hA : A ∈ g.verts := hmem A (by simp)
    have hB : B ∈ g.verts := hmem B (mem_of_getLast?_eq hl0)
    have heu : g.euclid A B = some (g.dist A B) := by
      unfold NavGraph.euclid
      rw [if_pos ⟨hA, hB⟩]
    have hinit := @astar_init g [] A B hA
    obtain ⟨r, hr, hsound, hcomp⟩ :=
      astarLoop_spec hwf hB (g.verts.length + 1) _ hinit (by simp)
    cases r with
    | none =>
      exact (hcomp rfl (A :: y :: t) hq0).elim
    | some p =>
      refine ⟨p, ?_, (hsound p rfl).1, (hsound p rfl).2⟩
      unfold NavGraph.get_shortest_path
      rw [if_neg hab]
      simp only [heu]
      exact hr

/-! ### Claim C8: alternative routes -/

/-- Unblocked adjacency weakens to plain adjacency. -/
theorem chainB_weaken {g : NavGraph} {bl : List (ℕ × ℕ)} :
    ∀ {p : List ℕ}, chainB g bl p = true → chainB g [] p = true := by
  intro p
  induction p with
  | nil => intro h; exact h
  | cons u rest ih =>
    intro h
    cases rest with
    | nil => exact h
    | cons v ws =>
      rw [chainB_cons2] at h ⊢
      have h2 := Bool.and_eq_true .. |>.mp h
      refine Bool.and_eq_true .. |>.mpr ⟨?_, ih h2.2⟩
      have ha := (effAdjB_parts h2.1).1
      unfold effAdjB blockedB
      rw [ha]
      rfl

theorem isRouteB_weaken {g : NavGraph} {bl : List (ℕ × ℕ)} {A B : ℕ}
    {p : List ℕ} (h : isRouteB g bl A B p = true) :
    isRouteB g [] A B p = true := by
  obtain ⟨h1, h2, h3⟩ := isRouteB_parts h
  exact isRouteB_intro h1 h2 (chainB_weaken h3)

/-- No lane of a route valid for the exclusion set `bl` belongs to `bl`. -/
theorem lanes_unblocked {g : NavGraph} {bl : List (ℕ × ℕ)} :
    ∀ {p : List ℕ}, chainB g bl p = true →
      ∀ e ∈ laneList p, e ∉ bl := by
  intro p
  induction p with
  | nil => intro _ e he; simp [laneList] at he
  | cons u rest ih =>
    intro h e he
    cases rest with
    | nil => simp [laneList] at he
    | cons v ws =>
      rw [chainB_cons2] at h
      have h2 := Bool.and_eq_true .. |>.mp h
      rcases List.mem_cons.mp he with he1 | he1
      · have hbf := (effAdjB_parts h2.1).2
        unfold blockedB at hbf
        rw [he1]
        intro hmem
        have hct : bl.contains (edgeKey u v) = true := by simpa using hmem
        rw [hct] at hbf
        exact Bool.noConfusion hbf
      · exact ih h2.2 e he1

/-- Either in the front of the list or the designated last element. -/
theorem mem_dropLast_or_getLastD {l : List (List ℕ)} {p : List ℕ}
    (hne : l ≠ []) (hp : p ∈ l) :
    p ∈ l.dropLast ∨ p = l.getLastD [] := by
  have hsplit : l.dropLast ++ [l.getLast hne] = l := List.dropLast_append_getLast hne
  have hlastD : l.getLastD [] = l.getLast hne := by
    rw [List.getLastD_eq_getLast?, List.getLast?_eq_getLast_of_ne_nil hne]
    rfl
  rw [← hsplit] at hp
  rcases List.mem_append.mp hp with h | h
  · exact Or.inl h
  · right
    rw [hlastD]
    simpa using h

/-- Non-negativity of the weight of any route. -/
theorem routeW_route_nonneg {g : NavGraph} (hwf : g.WF) {bl : List (ℕ × ℕ)}
    {A B : ℕ} {q : List ℕ} (hq : isRouteB g bl A B q = true) :
    0 ≤ routeW g q := by
  obtain ⟨hh, hl, hch⟩ := isRouteB_parts hq
  cases q with
  | nil => simp at hh
  | cons x xs =>
    cases xs with
    | nil => exact le_of_eq rfl
    | cons y ys => exact routeW_nonneg hwf hch (chainB_mem2 hwf hch (by simp))

/-- The ends of a nontrivial route are loaded sites. -/
theorem route_ends_mem {g : NavGraph} (hwf : g.WF) {bl : List (ℕ × ℕ)}
    {A B : ℕ} (hab : A ≠ B) {q : List ℕ} (hq : isRouteB g bl A B q = true) :
    A ∈ g.verts ∧ B ∈ g.verts := by
  obtain ⟨hh, hl, hch⟩ := isRouteB_parts hq
  obtain ⟨x, y, t, hqe⟩ : ∃ x y t, q = x :: y :: t := by
    cases q with
    | nil => simp at hh
    | cons x xs =>
      cases xs with
      | nil =>
        have h1 : x = A := by simpa using hh
        have h2 : x = B := by simpa using hl
        exact absurd (h1.symm.trans h2) hab
      | cons y ys => exact ⟨x, y, ys, rfl⟩
  subst hqe
  have hxA : A = x := (show x = A by simpa using hh).symm
  subst hxA
  have hmem := chainB_mem2 hwf hch (by simp)
  exact ⟨hmem A (by simp), hmem B (mem_of_getLast?_eq hl)⟩

/-- `get_shortest_path` with distinct existing endpoints never raises, and
its answer is sound, optimal and complete for the exclusion set. -/
theorem get_shortest_path_spec {g : NavGraph} (hwf : g.WF) {A B : ℕ}
    (hA : A ∈ g.verts) (hB : B ∈ g.verts) (hab : A ≠ B) (bl : List (ℕ × ℕ)) :
    ∃ r, g.get_shortest_path A B bl = .ok r ∧
      (∀ p, r = some p → isRouteB g bl A B p = true ∧
        ∀ q, isRouteB g bl A B q = true → routeW g p ≤ routeW g q) ∧
      (r = none → ∀ q, isRouteB g bl A B q = true → False) := by
  have heu : g.euclid A B = some (g.dist A B) := by
    unfold NavGraph.euclid
    rw [if_pos ⟨hA, hB⟩]
  obtain ⟨r, hr, hsound, hcomp⟩ :=
    astarLoop_spec hwf hB (g.verts.length + 1) _
      (@astar_init g bl A B hA) (by simp)
  refine ⟨r, ?_, hsound, hcomp⟩
  unfold NavGraph.get_shortest_path
  rw [if_neg hab]
  simp only [heu]
  exact hr

/-- The alternative-paths loop: never errors, only appends, stays within
`max maxp paths.length` routes, and keeps every route genuine and
lane-disjoint from all earlier ones. -/
theorem altLoop_spec {g : NavGraph} (hwf : g.WF) {A B : ℕ}
    (hA : A ∈ g.verts) (hB : B ∈ g.verts) (hab : A ≠ B) :
    ∀ (fuel maxp : ℕ) (paths : List (List ℕ)) (blocked : List (ℕ × ℕ)),
      paths ≠ [] →
      (∀ p ∈ paths, isRouteB g [] A B p = true) →
      (∀ p ∈ paths.dropLast, ∀ e ∈ laneList p, e ∈ blocked) →
      List.Pairwise (fun p q => ∀ e ∈ laneList q, e ∉ laneList p) paths →
      ∃ l, altLoop g A B maxp fuel paths blocked = .ok l ∧
        (∃ ext, l = paths ++ ext) ∧
        l.length ≤ max maxp paths.length ∧
        (∀ p ∈ l, isRouteB g [] A B p = true) ∧
        List.Pairwise (fun p q => ∀ e ∈ laneList q, e ∉ laneList p) l := by
  intro fuel
  induction fuel with
  | zero =>
    intro maxp paths blocked _ h1 _ h2
    exact ⟨paths, rfl, ⟨[], by simp⟩, Nat.le_max_right .., h1, h2⟩
  | succ fuel ih =>
    intro maxp paths blocked hne h1 h3 h2
    rw [altLoop]
    by_cases hlt : paths.length < maxp
    · rw [if_pos hlt]
      set bl1 := blocked ++ laneList (paths.getLastD []) with hbl1
      have hcov : ∀ p ∈ paths, ∀ e ∈ laneList p, e ∈ bl1 := by
        intro p hp e he
        rcases mem_dropLast_or_getLastD hne hp with h | h
        · exact List.mem_append.mpr (Or.inl (h3 p h e he))
        · refine List.mem_append.mpr (Or.inr ?_)
          rw [← h]
          exact he
      obtain ⟨r, hr, hsound, hcomp⟩ := get_shortest_path_spec hwf hA hB hab bl1
      cases r with
      | none =>
        simp only [hr]
        exact ⟨paths, rfl, ⟨[], by simp⟩, Nat.le_max_right .., h1, h2⟩
      | some p =>
        simp only [hr]
        obtain ⟨hproute, hpopt⟩ := hsound p rfl
        have hp0 : isRouteB g [] A B p = true := isRouteB_weaken hproute
        have hpl : ∀ e ∈ laneList p, e ∉ bl1 :=
          lanes_unblocked (isRouteB_parts hproute).2.2
        have h1' : ∀ q ∈ paths ++ [p], isRouteB g [] A B q = true := by
          intro q hq
          rcases List.mem_append.mp hq with h | h
          · exact h1 q h
          · have : q = p := by simpa using h
            rw [this]
            exact hp0
        have h3' : ∀ q ∈ (paths ++ [p]).dropLast, ∀ e ∈ laneList q, e ∈ bl1 := by
          intro q hq
          rw [List.dropLast_concat] at hq
          exact hcov q hq
        have h2' : List.Pairwise (fun p q => ∀ e ∈ laneList q, e ∉ laneList p)
            (paths ++ [p]) := by
          rw [List.pairwise_append]
          refine ⟨h2, by simp, ?_⟩
          intro a ha b hb
          have hbp : b = p := by simpa using hb
          rw [hbp]
          intro e hep hea
          exact hpl e hep (hcov a ha e hea)
        obtain ⟨l, hl, ⟨ext, hext⟩, hlen, hall, hpw⟩ :=
          ih maxp (paths ++ [p]) bl1 (by simp) h1' h3' h2'
        refine ⟨l, hl, ⟨[p] ++ ext, by rw [hext, List.append_assoc]⟩, ?_,
          hall, hpw⟩
        have e1 : max maxp (paths ++ [p]).length = maxp := by
          rw [List.length_append]
          exact Nat.max_eq_left (by simpa using hlt)
        have e2 : max maxp paths.length = maxp :=
          Nat.max_eq_left (le_of_lt hlt)
        rw [e2]
        rw [e1] at hlen
        exact hlen
    · rw [if_neg hlt]
      exact ⟨paths, rfl, ⟨[], by simp⟩, Nat.le_max_right .., h1, h2⟩

/-- C8 amended: when some connecting route exists, `get_alternative_paths`
returns at least one route; the first returned route is a shortest one;
every returned route is genuine; later routes avoid every lane of every
earlier route; and the number of routes is at most `max max_paths 1` — one
route is returned even for `max_paths = 0`, so the claimed `max_count`
bound holds exactly for `max_paths ≥ 1`. -/
theorem C8_alternative_paths (g : NavGraph) (hwf : g.WF) (A B : ℕ)
    (hconn : ∃ q, isRouteB g [] A B q = true) (maxp : ℕ) :
    ∃ l, g.get_alternative_paths A B maxp = .ok l ∧
      1 ≤ l.length ∧ l.length ≤ max maxp 1 ∧
      (∀ p ∈ l, isRouteB g [] A B p = true) ∧
      (∀ p, l.head? = some p →
        ∀ q, isRouteB g [] A B q = true → routeW g p ≤ routeW g q) ∧
      List.Pairwise (fun p q => ∀ e ∈ laneList q, e ∉ laneList p) l := by
  by_cases hab : A = B
  · subst hab
    refine ⟨[[A]], ?_, by simp, by simp, ?_, ?_, by simp⟩
    · unfold NavGraph.get_alternative_paths
      rw [if_pos rfl]
    · intro p hp
      have hpe : p = [A] := by simpa using hp
      rw [hpe]
      exact isRouteB_intro rfl rfl rfl
    · intro p hp q hq
      have hpe : p = [A] := (show [A] = p by simpa using hp).symm
      rw [hpe]
      show (0:ℚ) ≤ routeW g q
      exact routeW_route_nonneg hwf hq
  · obtain ⟨q0, hq0⟩ := hconn
    obtain ⟨hA, hB⟩ := route_ends_mem hwf hab hq0
    obtain ⟨r, hr, hsound, hcomp⟩ := get_shortest_path_spec hwf hA hB hab []
    cases r with
    | none => exact (hcomp rfl q0 hq0).elim
    | some p0 =>
      obtain ⟨hp0route, hp0opt⟩ := hsound p0 rfl
      unfold NavGraph.get_alternative_paths
      rw [if_neg hab]
      simp only [hr]
      obtain ⟨l, hl, ⟨ext, hext⟩, hlen, hall, hpw⟩ :=
        altLoop_spec hwf hA hB hab maxp maxp [p0] [] (by simp)
          (by intro p hp
              have : p = p0 := by simpa using hp
              rw [this]
              exact hp0route)
          (by intro p hp
              simp at hp)
          (by simp)
      refine ⟨l, hl, ?_, by simpa using hlen, hall, ?_, hpw⟩
      · rw [hext]
        simp
      · intro p hp q hq
        rw [hext] at hp
        have hpe : p0 = p := by simpa using hp
        rw [← hpe]
        exact hp0opt q hq

/-- Witness graph wellformedness for the two-site graph. -/
theorem g4_wf : g4.WF :=
  ⟨by with_unfolding_all decide, by with_unfolding_all decide,
   by with_unfolding_all decide⟩

/-- Witness for C1 on the two-site graph: sites 0 and 1 are joined by the
lane `(0, 1)`. -/
theorem C1_shortest_path_optimal_witness :
    g4.WF ∧ (∃ q, isRouteB g4 [] 0 1 q = true) ∧
    ((∃ p, g4.get_shortest_path 0 1 [] = .ok (some p) ∧
       isRouteB g4 [] 0 1 p = true ∧
       ∀ q, isRouteB g4 [] 0 1 q = true → routeW g4 p ≤ routeW g4 q) ∧
     (∀ s, g4.get_shortest_path s s [] = .ok (some [s]))) := by
  have hconn : ∃ q, isRouteB g4 [] 0 1 q = true :=
    ⟨[0, 1], by with_unfolding_all rfl⟩
  exact ⟨g4_wf, hconn, C1_shortest_path_optimal g4 g4_wf 0 1 hconn⟩

/-- Witness for C8 amended on the two-site graph with `max_paths = 2`. -/
theorem C8_alternative_paths_witness :
    g4.WF ∧ (∃ q, isRouteB g4 [] 0 1 q = true) ∧
    (∃ l, g4.get_alternative_paths 0 1 2 = .ok l ∧
      1 ≤ l.length ∧ l.length ≤ max 2 1 ∧
      (∀ p ∈ l, isRouteB g4 [] 0 1 p = true) ∧
      (∀ p, l.head? = some p →
        ∀ q, isRouteB g4 [] 0 1 q = true → routeW g4 p ≤ routeW g4 q) ∧
      List.Pairwise (fun p q => ∀ e ∈ laneList q, e ∉ laneList p) l) := by
  have hconn : ∃ q, isRouteB g4 [] 0 1 q = true :=
    ⟨[0, 1], by with_unfolding_all rfl⟩
  exact ⟨g4_wf, hconn, C8_alternative_paths g4 g4_wf 0 1 hconn 2⟩
